import Mathlib

/-!
Verification of the teeny-tiny compiler (Python sources `lex.py`, `parse.py`,
`emit.py`, `teenytiny.py`) against its natural-language specification.

The Python code is shallowly embedded:
* `lex.py` becomes pure functions over an explicit `LexState` (the source text
  as a `List Char` plus the cursor offset).  The Python field `self.char` is
  always `self.source[self.pos]`, or the sentinel `"\0"` once the offset passes
  the end, so it is modelled as the derived function `LexState.curChar`.
* The loops of `lex.py` (`skip_whitespace`, `skip_comment`, the string scan and
  the digit/alphanumeric scans) are written with an explicit counter that the
  wrapper functions instantiate with `source.length - pos`, the exact number of
  characters left; a loop that in Python would run past the end of the source
  forever (scanning for a character that is not there) returns a distinguished
  `hang`/`none` result at counter zero, which corresponds precisely to the
  offset reaching the source length with the loop condition still true.
* Python's `str.isdigit` / `isalpha` / `isalnum` are modelled by the ASCII
  `Char.isDigit` / `Char.isAlpha` / `Char.isAlphanum`; only ASCII sources are
  considered.
* `parse.py` pulls tokens lazily from the lexer, one token of lookahead ahead
  of `current_token` (`check_peek` is defined in the source but never called).
  Here the token stream is materialized first (`lexAllF`), reproducing the
  exact pulls the parser performs: the parser stops pulling once
  `current_token` is the end-of-input token, at which point it has pulled one
  token beyond it into `peek_token`, so `lexAllF` collects every token up to
  and including the first EOF token and then performs that one extra pull.
  The two presentations differ only in which diagnostic is reported on a
  source that has a parse error at an early token and a lexical error at a
  later one; they agree on success, on the produced output, and on whether
  compilation fails.
* The `Emitter` of `emit.py` is the pair of strings `header`/`code` carried in
  the parser state; `emit` appends to `code`, `emit_line` appends the text plus
  a newline, `header_line` likewise to `header`.  The final output file is
  `header ++ code`.
* Python `set`s (`symbols`, `labels_declared`, `labels_gotoed`) are lists with
  membership-guarded insertion, which matches `set.add` up to iteration order.
  The only place iteration order is observable is the final label check, which
  therefore takes an enumeration function `ord` as a parameter.
* `sys.exit(msg)` (the `abort` helpers) becomes the `err msg` outcome, with the
  prefixes `"Lexing error. "` / `"Error "` that the two abort helpers prepend.
  The tracing `print(...)` calls of `parse.py` write to stdout, not to the
  emitted program, and are not modelled.
-/

namespace TeenyTiny

/-- The Python sentinel character `"\0"` used for end of input. -/
def nullChar : Char := Char.ofNat 0

/-- Token kinds, from the `TokenType` enum of `lex.py`. -/
inductive TokenType where
  | EOF | NEWLINE | NUMBER | IDENT | STRING
  | LABEL | GOTO | PRINT | INPUT | LET | IF | THEN | ENDIF | WHILE | REPEAT | ENDWHILE
  | EQ | PLUS | MINUS | ASTERISK | SLASH | EQEQ | NOTEQ | LT | LTEQ | GT | GTEQ
deriving Repr, DecidableEq

/-- The numeric value of each enum member in `lex.py`. -/
def TokenType.value : TokenType → Int
  | .EOF => -1
  | .NEWLINE => 0
  | .NUMBER => 1
  | .IDENT => 2
  | .STRING => 3
  | .LABEL => 101
  | .GOTO => 102
  | .PRINT => 103
  | .INPUT => 104
  | .LET => 105
  | .IF => 106
  | .THEN => 107
  | .ENDIF => 108
  | .WHILE => 109
  | .REPEAT => 110
  | .ENDWHILE => 111
  | .EQ => 201
  | .PLUS => 202
  | .MINUS => 203
  | .ASTERISK => 204
  | .SLASH => 205
  | .EQEQ => 206
  | .NOTEQ => 207
  | .LT => 208
  | .LTEQ => 209
  | .GT => 210
  | .GTEQ => 211

/-- The `name` attribute of each enum member. -/
def TokenType.name : TokenType → String
  | .EOF => "EOF"
  | .NEWLINE => "NEWLINE"
  | .NUMBER => "NUMBER"
  | .IDENT => "IDENT"
  | .STRING => "STRING"
  | .LABEL => "LABEL"
  | .GOTO => "GOTO"
  | .PRINT => "PRINT"
  | .INPUT => "INPUT"
  | .LET => "LET"
  | .IF => "IF"
  | .THEN => "THEN"
  | .ENDIF => "ENDIF"
  | .WHILE => "WHILE"
  | .REPEAT => "REPEAT"
  | .ENDWHILE => "ENDWHILE"
  | .EQ => "EQ"
  | .PLUS => "PLUS"
  | .MINUS => "MINUS"
  | .ASTERISK => "ASTERISK"
  | .SLASH => "SLASH"
  | .EQEQ => "EQEQ"
  | .NOTEQ => "NOTEQ"
  | .LT => "LT"
  | .LTEQ => "LTEQ"
  | .GT => "GT"
  | .GTEQ => "GTEQ"

/-- All members of the enum, in declaration order. -/
def TokenType.all : List TokenType :=
  [.EOF, .NEWLINE, .NUMBER, .IDENT, .STRING,
   .LABEL, .GOTO, .PRINT, .INPUT, .LET, .IF, .THEN, .ENDIF, .WHILE, .REPEAT, .ENDWHILE,
   .EQ, .PLUS, .MINUS, .ASTERISK, .SLASH, .EQEQ, .NOTEQ, .LT, .LTEQ, .GT, .GTEQ]

/-- A token: its text and its kind (`Token` dataclass of `lex.py`). -/
structure Token where
  text : String
  kind : TokenType
deriving Repr, DecidableEq

/-- `Token.is_keyword`: the first enum member whose name matches `text` and
whose value lies in `[100, 200]`, if any. -/
def Token.is_keyword (text : String) : Option TokenType :=
  TokenType.all.find? fun k =>
    k.name == text && decide (100 ≤ k.value) && decide (k.value ≤ 200)

/-- The lexer cursor: the source (already terminated by the appended newline of
`Lexer.__init__`) and the current offset.  `self.char` is derived via
`curChar`. -/
structure LexState where
  source : List Char
  pos : Nat
deriving Repr, DecidableEq

/-- `Lexer.__init__`: append a newline and start at the first character. -/
def LexState.init (input : List Char) : LexState :=
  ⟨input ++ ['\n'], 0⟩

/-- The current character, `"\0"` once the offset passes the end. -/
def LexState.curChar (s : LexState) : Char :=
  if h : s.pos < s.source.length then s.source.get ⟨s.pos, h⟩ else nullChar

/-- `Lexer.peek`: the next character, `"\0"` beyond the end. -/
def LexState.peek (s : LexState) : Char :=
  if h : s.pos + 1 < s.source.length then s.source.get ⟨s.pos + 1, h⟩ else nullChar

/-- `Lexer.next_char`: advance the offset by one. -/
def LexState.next (s : LexState) : LexState :=
  ⟨s.source, s.pos + 1⟩

/-- Whitespace characters skipped by `skip_whitespace`. -/
def isWs (c : Char) : Prop := c = ' ' ∨ c = '\t' ∨ c = '\r'

instance (c : Char) : Decidable (isWs c) := by
  unfold isWs; infer_instance

/-- Loop of `skip_whitespace`; `fuel` is `source.length - pos`, so `fuel = 0`
means the offset is at or past the end, where the current character is the
`"\0"` sentinel (not whitespace) and the Python loop exits. -/
def skipWhitespaceAux : Nat → LexState → LexState
  | 0, s => s
  | Nat.succ f, s => if isWs s.curChar then skipWhitespaceAux f s.next else s

/-- `Lexer.skip_whitespace`. -/
def skipWhitespace (s : LexState) : LexState :=
  skipWhitespaceAux (s.source.length - s.pos) s

/-- Loop of `skip_comment` (`while self.char != "\n"`); at `fuel = 0` the
current character is the `"\0"` sentinel, the loop condition stays true and the
Python loop advances past the end forever, which is reported as `none`. -/
def skipCommentAux : Nat → LexState → Option LexState
  | fuel, s =>
    if s.curChar = '\n' then some s
    else match fuel with
      | 0 => none
      | Nat.succ f => skipCommentAux f s.next

/-- `Lexer.skip_comment`. -/
def skipComment (s : LexState) : Option LexState :=
  if s.curChar = '#' then skipCommentAux (s.source.length - s.pos) s else some s

/-- Result of the string-literal scan loop. -/
inductive ScanRes where
  | ok : LexState → ScanRes
  | abort : String → ScanRes
  | hang : ScanRes
deriving Repr, DecidableEq

/-- Characters that abort the string scan.  The Python membership test is
`self.char in ("\r", "\t", "\n", "//", "%")`; `self.char` is always a single
character, so the two-character member `"//"` can never be equal to it and is
omitted here. -/
def isIllegalInString (c : Char) : Prop := c = '\r' ∨ c = '\t' ∨ c = '\n' ∨ c = '%'

instance (c : Char) : Decidable (isIllegalInString c) := by
  unfold isIllegalInString; infer_instance

/-- String scan loop (`while self.char != '"'`), from `Lexer.get_token`;
`fuel` is `source.length - pos`.  At `fuel = 0` the current character is the
`"\0"` sentinel, which is neither the closing quote nor one of the illegal
characters, so the Python loop would advance past the end forever: `hang`. -/
def scanStringAux : Nat → LexState → ScanRes
  | fuel, s =>
    if s.curChar = '"' then .ok s
    else if isIllegalInString s.curChar then .abort "Illegal character in string."
    else match fuel with
      | 0 => .hang
      | Nat.succ f => scanStringAux f s.next

/-- The string scan starting at the character after the opening quote. -/
def scanString (s : LexState) : ScanRes :=
  scanStringAux (s.source.length - s.pos) s

/-- Digit scan loop (`while self.peek().isdigit(): self.next_char()`); beyond
the end `peek` is the `"\0"` sentinel, which is not a digit, so the loop always
exits on its own and `fuel = 0` (offset at or past the end) returns the state
unchanged exactly as Python does. -/
def scanDigitsAux : Nat → LexState → LexState
  | 0, s => s
  | Nat.succ f, s => if s.peek.isDigit then scanDigitsAux f s.next else s

/-- Digit scan starting at the current position. -/
def scanDigits (s : LexState) : LexState :=
  scanDigitsAux (s.source.length - s.pos) s

/-- Alphanumeric scan loop (`while self.peek().isalnum()`), as `scanDigitsAux`. -/
def scanAlnumAux : Nat → LexState → LexState
  | 0, s => s
  | Nat.succ f, s => if s.peek.isAlphanum then scanAlnumAux f s.next else s

/-- Alphanumeric scan starting at the current position. -/
def scanAlnum (s : LexState) : LexState :=
  scanAlnumAux (s.source.length - s.pos) s

/-- Python slice `source[a:b]` as a string. -/
def sliceStr (src : List Char) (a b : Nat) : String :=
  String.mk ((src.drop a).take (b - a))

/-- Result of one `get_token` call: a token plus the follow-up state, a fatal
diagnostic (`sys.exit`), or divergence of one of the internal loops. -/
inductive LexResult where
  | tok : Token → LexState → LexResult
  | err : String → LexResult
  | hang : LexResult
deriving Repr, DecidableEq

/-- `Lexer.get_token`, branch for branch.  Every token-producing branch ends
with the trailing `self.next_char()` of line 165 of `lex.py`.  The Python
locals (`last_char`, `start`, and the loop results) are inlined: after the
two-character operators consume their second character via `next_char`,
`last_char + self.char` is `curChar` of the position before plus `curChar` of
the position after, and `start` is the position where the lexeme began.  Note
the `==` branch: `lex.py` line 99 builds `Token(last_char, TokenType.EQEQ)`,
whose text is the single character `=`, unlike the `>=`/`<=`/`!=` branches
which build `last_char + self.char`. -/
def getToken (s0 : LexState) : LexResult :=
  match skipComment (skipWhitespace s0) with
  | none => .hang
  | some s =>
    if s.curChar = '+' then .tok ⟨String.singleton s.curChar, .PLUS⟩ s.next
    else if s.curChar = '-' then .tok ⟨String.singleton s.curChar, .MINUS⟩ s.next
    else if s.curChar = '*' then .tok ⟨String.singleton s.curChar, .ASTERISK⟩ s.next
    else if s.curChar = '/' then .tok ⟨String.singleton s.curChar, .SLASH⟩ s.next
    else if s.curChar = '=' then
      if s.peek = '=' then
        .tok ⟨String.singleton s.curChar, .EQEQ⟩ s.next.next
      else .tok ⟨String.singleton s.curChar, .EQ⟩ s.next
    else if s.curChar = '>' then
      if s.peek = '=' then
        .tok ⟨String.singleton s.curChar ++ String.singleton s.next.curChar, .GTEQ⟩ s.next.next
      else .tok ⟨String.singleton s.curChar, .GT⟩ s.next
    else if s.curChar = '<' then
      if s.peek = '=' then
        .tok ⟨String.singleton s.curChar ++ String.singleton s.next.curChar, .LTEQ⟩ s.next.next
      else .tok ⟨String.singleton s.curChar, .LT⟩ s.next
    else if s.curChar = '!' then
      if s.peek = '=' then
        .tok ⟨String.singleton s.curChar ++ String.singleton s.next.curChar, .NOTEQ⟩ s.next.next
      else .err ("Lexing error. Expected !=, got !" ++ String.singleton s.peek)
    else if s.curChar = '"' then
      match scanString s.next with
      | .ok s2 => .tok ⟨sliceStr s2.source s.next.pos s2.pos, .STRING⟩ s2.next
      | .abort m => .err ("Lexing error. " ++ m)
      | .hang => .hang
    else if s.curChar.isDigit then
      if (scanDigits s).peek = '.' then
        if ¬ (scanDigits s).next.peek.isDigit then
          .err ("Lexing error. illegal character in number at " ++
            toString (scanDigits s).next.pos)
        else
          .tok ⟨sliceStr (scanDigits (scanDigits s).next).source s.pos
                  ((scanDigits (scanDigits s).next).pos + 1), .NUMBER⟩
            (scanDigits (scanDigits s).next).next
      else
        .tok ⟨sliceStr (scanDigits s).source s.pos ((scanDigits s).pos + 1), .NUMBER⟩
          (scanDigits s).next
    else if s.curChar.isAlpha then
      match Token.is_keyword (sliceStr (scanAlnum s).source s.pos ((scanAlnum s).pos + 1)) with
      | none =>
        .tok ⟨sliceStr (scanAlnum s).source s.pos ((scanAlnum s).pos + 1), .IDENT⟩
          (scanAlnum s).next
      | some kw =>
        .tok ⟨sliceStr (scanAlnum s).source s.pos ((scanAlnum s).pos + 1), kw⟩
          (scanAlnum s).next
    else if s.curChar = '\n' then .tok ⟨String.singleton s.curChar, .NEWLINE⟩ s.next
    else if s.curChar = nullChar then .tok ⟨String.singleton s.curChar, .EOF⟩ s.next
    else .err ("Lexing error. Unknown token: " ++ String.singleton s.curChar)

/-- Outcome of a (possibly fueled) compilation stage: success, a fatal
`sys.exit` diagnostic, divergence of a source loop, or exhaustion of the
modelling fuel (which never happens once the fuel is large enough). -/
inductive Outcome (α : Type) where
  | ok : α → Outcome α
  | err : String → Outcome α
  | hang : Outcome α
  | fuelOut : Outcome α
deriving Repr, DecidableEq

/-- Sequencing that propagates errors, divergence and fuel exhaustion. -/
def Outcome.bind {α β : Type} : Outcome α → (α → Outcome β) → Outcome β
  | .ok a, f => f a
  | .err m, _ => .err m
  | .hang, _ => .hang
  | .fuelOut, _ => .fuelOut

/-- An outcome is settled when the run finished: success or a diagnostic. -/
def Outcome.settled {α : Type} : Outcome α → Bool
  | .ok _ => true
  | .err _ => true
  | .hang => false
  | .fuelOut => false

/-- The sequence of tokens the parser pulls from the lexer: `get_token` is
iterated from the initial cursor; the parser stops advancing once
`current_token` is the EOF token, by which time it has pulled exactly one more
token into `peek_token`, so after collecting the first EOF token one further
`get_token` call is performed (its token is never examined, `check_peek` being
unused, but its failure is fatal exactly as in the lazy original). -/
def lexAllF : Nat → LexState → Outcome (List Token)
  | 0, _ => .fuelOut
  | Nat.succ f, s =>
    match getToken s with
    | .err m => .err m
    | .hang => .hang
    | .tok t s' =>
      if t.kind = TokenType.EOF then
        match getToken s' with
        | .err m => .err m
        | .hang => .hang
        | .tok _ _ => .ok [t]
      else
        match lexAllF f s' with
        | .ok ts => .ok (t :: ts)
        | r => r

/-- Tokenize a whole input, with enough fuel for its length (each `get_token`
call advances the offset by at least one, so at most `length + 2` tokens are
produced before the first EOF token). -/
def lexProgram (input : String) : Outcome (List Token) :=
  lexAllF (input.length + 3) (LexState.init input.data)

/-- Parser/emitter state (`Parser.__init__` of `parse.py` plus the `Emitter`
of `emit.py`): the not-yet-consumed tokens (`current_token` is the head), the
three sets, and the two output regions. -/
structure PState where
  toks : List Token
  symbols : List String
  labels_declared : List String
  labels_gotoed : List String
  header : String
  code : String
deriving Repr, DecidableEq

/-- `current_token`.  Beyond the materialized stream the lexer would keep
yielding EOF tokens, so an empty list reads as the EOF token (this point is
never reached on the streams `lexAllF` produces). -/
def PState.cur (st : PState) : Token :=
  match st.toks with
  | [] => ⟨String.singleton nullChar, .EOF⟩
  | t :: _ => t

/-- `next_token`: shift the lookahead window by one token. -/
def PState.advance (st : PState) : PState :=
  { st with toks := st.toks.drop 1 }

/-- `Emitter.emit`. -/
def PState.emit (st : PState) (t : String) : PState :=
  { st with code := st.code ++ t }

/-- `Emitter.emit_line`. -/
def PState.emit_line (st : PState) (t : String) : PState :=
  { st with code := st.code ++ t ++ "\n" }

/-- `Emitter.header_line`. -/
def PState.header_line (st : PState) (t : String) : PState :=
  { st with header := st.header ++ t ++ "\n" }

/-- `Parser.match`: check the current token's kind, abort otherwise, advance. -/
def matchTok (kind : TokenType) (st : PState) : Outcome PState :=
  if kind = st.cur.kind then .ok st.advance
  else .err ("Error Expected " ++ kind.name ++ ", got " ++ st.cur.kind.name)

/-- `Parser.primary`: a number or an already-declared identifier, emitted
verbatim. -/
def primaryF (st : PState) : Outcome PState :=
  if st.cur.kind = TokenType.NUMBER then
    .ok ((st.emit st.cur.text).advance)
  else if st.cur.kind = TokenType.IDENT then
    if st.cur.text ∉ st.symbols then
      .err ("Error Refrencing variable before assignment: " ++ st.cur.text)
    else .ok ((st.emit st.cur.text).advance)
  else .err ("Error Unexpected token at " ++ st.cur.text)

/-- `Parser.unary`: optional sign emitted verbatim, then `primary`. -/
def unaryF (st : PState) : Outcome PState :=
  if st.cur.kind = TokenType.PLUS ∨ st.cur.kind = TokenType.MINUS then
    primaryF ((st.emit st.cur.text).advance)
  else primaryF st

/-- Loop of `Parser.term` (`while` asterisk or slash). -/
def termLoopF : Nat → PState → Outcome PState
  | 0, _ => .fuelOut
  | Nat.succ f, st =>
    if st.cur.kind = TokenType.ASTERISK ∨ st.cur.kind = TokenType.SLASH then
      (unaryF ((st.emit st.cur.text).advance)).bind (termLoopF f)
    else .ok st

/-- `Parser.term`. -/
def termF (f : Nat) (st : PState) : Outcome PState :=
  (unaryF st).bind (termLoopF f)

/-- Loop of `Parser.expression` (`while` plus or minus). -/
def exprLoopF : Nat → PState → Outcome PState
  | 0, _ => .fuelOut
  | Nat.succ f, st =>
    if st.cur.kind = TokenType.PLUS ∨ st.cur.kind = TokenType.MINUS then
      (termF f ((st.emit st.cur.text).advance)).bind (exprLoopF f)
    else .ok st

/-- `Parser.expression`. -/
def expressionF (f : Nat) (st : PState) : Outcome PState :=
  (termF f st).bind (exprLoopF f)

/-- `Parser.is_comparison_op`. -/
def isComparisonOp (k : TokenType) : Prop :=
  k = .GT ∨ k = .LT ∨ k = .GTEQ ∨ k = .LTEQ ∨ k = .EQEQ ∨ k = .NOTEQ

instance (k : TokenType) : Decidable (isComparisonOp k) := by
  unfold isComparisonOp; infer_instance

/-- Trailing loop of `Parser.comparison` (zero or more further operator and
operand pairs). -/
def comparisonLoopF : Nat → PState → Outcome PState
  | 0, _ => .fuelOut
  | Nat.succ f, st =>
    if isComparisonOp st.cur.kind then
      (expressionF f ((st.emit st.cur.text).advance)).bind (comparisonLoopF f)
    else .ok st

/-- `Parser.comparison`: one expression, a mandatory comparison operator and
expression, then the trailing loop. -/
def comparisonF (f : Nat) (st : PState) : Outcome PState :=
  (expressionF f st).bind fun st1 =>
    if isComparisonOp st1.cur.kind then
      (expressionF f ((st1.emit st1.cur.text).advance)).bind (comparisonLoopF f)
    else .err ("Error Expected comparison operator at " ++ st1.cur.text)

/-- Loop of `Parser.nl` (extra newlines) and of the leading-newline stripping
in `Parser.program`. -/
def nlLoopF : Nat → PState → Outcome PState
  | 0, _ => .fuelOut
  | Nat.succ f, st =>
    if st.cur.kind = TokenType.NEWLINE then nlLoopF f st.advance else .ok st

/-- `Parser.nl`: at least one newline, then any extras. -/
def nlF (f : Nat) (st : PState) : Outcome PState :=
  (matchTok TokenType.NEWLINE st).bind (nlLoopF f)

mutual

/-- `Parser.statement`: dispatch on the current token's kind, then the
mandatory trailing `nl`. -/
def statementF : Nat → PState → Outcome PState
  | 0, _ => .fuelOut
  | Nat.succ f, st =>
    (if st.cur.kind = TokenType.PRINT then
      let st1 := st.advance
      if st1.cur.kind = TokenType.STRING then
        .ok ((st1.emit_line ("printf(\"" ++ st1.cur.text ++ "\\n\");")).advance)
      else
        (expressionF f (st1.emit ("printf(\"%" ++ ".2f\\n\", (float)("))).bind fun st2 =>
          .ok (st2.emit_line "));")
    else if st.cur.kind = TokenType.IF then
      (comparisonF f (st.advance.emit "if(")).bind fun st2 =>
      (matchTok TokenType.THEN st2).bind fun st3 =>
      (nlF f st3).bind fun st4 =>
      (stmtListF f TokenType.ENDIF (st4.emit_line ")\x7b")).bind fun st5 =>
      (matchTok TokenType.ENDIF st5).bind fun st6 =>
      .ok (st6.emit_line "\x7d")
    else if st.cur.kind = TokenType.WHILE then
      (comparisonF f (st.advance.emit "while(")).bind fun st2 =>
      (matchTok TokenType.REPEAT st2).bind fun st3 =>
      (nlF f st3).bind fun st4 =>
      (stmtListF f TokenType.ENDWHILE (st4.emit_line ")\x7b")).bind fun st5 =>
      (matchTok TokenType.ENDWHILE st5).bind fun st6 =>
      .ok (st6.emit_line "\x7d")
    else if st.cur.kind = TokenType.LABEL then
      let st1 := st.advance
      if st1.cur.text ∈ st1.labels_declared then
        .err ("Error Label already exists: " ++ st1.cur.text)
      else
        matchTok TokenType.IDENT
          (({ st1 with labels_declared := st1.labels_declared ++ [st1.cur.text] }).emit_line
            (st1.cur.text ++ ":"))
    else if st.cur.kind = TokenType.GOTO then
      let st1 := st.advance
      let st2 := { st1 with labels_gotoed :=
        if st1.cur.text ∈ st1.labels_gotoed then st1.labels_gotoed
        else st1.labels_gotoed ++ [st1.cur.text] }
      matchTok TokenType.IDENT (st2.emit_line ("goto " ++ st1.cur.text ++ ";"))
    else if st.cur.kind = TokenType.LET then
      let st1 := st.advance
      let st2 :=
        if st1.cur.text ∉ st1.symbols then
          ({ st1 with symbols := st1.symbols ++ [st1.cur.text] }).header_line
            ("float " ++ st1.cur.text ++ ";")
        else st1
      (matchTok TokenType.IDENT (st2.emit (st2.cur.text ++ " = "))).bind fun st3 =>
      (matchTok TokenType.EQ st3).bind fun st4 =>
      (expressionF f st4).bind fun st5 =>
      .ok (st5.emit_line ";")
    else if st.cur.kind = TokenType.INPUT then
      let st1 := st.advance
      let st2 :=
        if st1.cur.text ∉ st1.symbols then
          ({ st1 with symbols := st1.symbols ++ [st1.cur.text] }).header_line
            ("float " ++ st1.cur.text ++ ";")
        else st1
      let st3 := st2.emit_line ("if(0 == scanf(\"%f\", &" ++ st2.cur.text ++ ")) \x7b")
      let st4 := st3.emit_line (st3.cur.text ++ " = 0;")
      let st5 := (st4.emit "scanf(\"%").emit_line "*s\");"
      matchTok TokenType.IDENT (st5.emit_line "\x7d")
    else
      .err ("Error Invalid statement at " ++ st.cur.text ++ " (" ++ st.cur.kind.name ++ ")")
    ).bind (nlF f)

/-- The statement loops of `parse.py`: `while not self.check_token(end)`
running `statement` (used with `ENDIF`, `ENDWHILE`, and with `EOF` for the
main loop of `Parser.program`). -/
def stmtListF : Nat → TokenType → PState → Outcome PState
  | 0, _, _ => .fuelOut
  | Nat.succ f, endKind, st =>
    if st.cur.kind = endKind then .ok st
    else (statementF f st).bind (stmtListF f endKind)

end

/-- The header scaffolding written at the start of `Parser.program`. -/
def scaffoldHeader : String :=
  "#include <stdio.h>" ++ "\n" ++ "int main(void)\x7b" ++ "\n"

/-- The initial parser state for a token stream. -/
def initPState (ts : List Token) : PState :=
  { toks := ts, symbols := [], labels_declared := [], labels_gotoed := [],
    header := scaffoldHeader, code := "" }

/-- `Parser.program` up to but excluding the final label-consistency check:
header scaffolding, leading newlines stripped, all statements parsed, closing
scaffolding emitted. -/
def programBodyF (f : Nat) (ts : List Token) : Outcome PState :=
  (nlLoopF f (initPState ts)).bind fun st1 =>
  (stmtListF f TokenType.EOF st1).bind fun st2 =>
  .ok ((st2.emit_line "return 0;").emit_line "\x7d")

/-- The final loop of `Parser.program`: abort at the first jumped-to label (in
the order `labels` enumerates the `labels_gotoed` set) that was never
declared. -/
def labelCheck : List String → List String → Outcome Unit
  | [], _ => .ok ()
  | l :: rest, declared =>
    if l ∈ declared then labelCheck rest declared
    else .err ("Error Attempting to GOTO an undeclared label: " ++ l)

/-- `Parser.program`.  `ord` models the unspecified iteration order of the
Python set `labels_gotoed` in the final check: it is some enumeration of that
set. -/
def programF (f : Nat) (ord : List String → List String) (ts : List Token) : Outcome PState :=
  (programBodyF f ts).bind fun st =>
  (labelCheck (ord st.labels_gotoed) st.labels_declared).bind fun _ =>
  .ok st

/-- Parser fuel that is always sufficient for an input of this length. -/
def defaultFuel (input : String) : Nat :=
  2 * input.length + 8

/-- The whole pipeline of `teenytiny.py`: lex, parse-and-emit, check labels,
and return the contents of the two regions whose concatenation
`Emitter.write_file` writes out. -/
def compileF (ord : List String → List String) (f : Nat) (input : String) :
    Outcome (String × String) :=
  (lexProgram input).bind fun ts =>
  (programF f ord ts).bind fun st => .ok (st.header, st.code)

/-- Compilation with the default fuel; `id` is one admissible enumeration of
the `labels_gotoed` set. -/
def compile (input : String) : Outcome (String × String) :=
  compileF id (defaultFuel input) input

/-- Spec-side characterization for the symbol-table claim: the identifiers
that appear as the target of a LET or INPUT, read off the token stream as the
text of any token immediately following a LET or INPUT token.  (On streams
that parse successfully these are exactly the grammar-level LET/INPUT
targets.) -/
def specLetInputTargets : List Token → List String
  | a :: b :: rest =>
    (if a.kind = TokenType.LET ∨ a.kind = TokenType.INPUT then [b.text] else []) ++
      specLetInputTargets (b :: rest)
  | _ => []

/-- The header-region declaration lines for a list of variables, in order. -/
def declsOf : List String → String
  | [] => ""
  | x :: r => "float " ++ x ++ ";" ++ "\n" ++ declsOf r

/-- The last token of a chunk is not a LET or INPUT token (so the chunk can be
concatenated with what follows without creating a new LET/INPUT target pair
across the boundary). -/
def noLITail (l : List Token) : Prop :=
  ∀ t : Token, l.getLast? = some t → ¬ (t.kind = TokenType.LET ∨ t.kind = TokenType.INPUT)

/-- The chunk is nonempty and ends with a newline token (every statement ends
with its mandatory `nl`). -/
def LastNL (l : List Token) : Prop :=
  ∃ pre t, l = pre ++ [t] ∧ t.kind = TokenType.NEWLINE

/-- How one parser phase transforms the state: it drops `n` tokens, appends
the fresh identifiers `fresh` to the symbol table together with their header
declarations, and the fresh identifiers are exactly the new LET/INPUT targets
of the consumed chunk. -/
def StepOk (n : Nat) (fresh : List String) (st st' : PState) : Prop :=
  st'.toks = st.toks.drop n ∧
  st'.symbols = st.symbols ++ fresh ∧
  (∀ y ∈ fresh, y ∉ st.symbols) ∧
  fresh.Nodup ∧
  st'.header = st.header ++ declsOf fresh ∧
  (∀ y ∈ fresh, y ∈ specLetInputTargets (st.toks.take n)) ∧
  (∀ y ∈ specLetInputTargets (st.toks.take n), y ∈ st.symbols ∨ y ∈ fresh)

/-- How the expression-family rules transform the state: `n` tokens dropped,
symbol table and header untouched, and no LET or INPUT token consumed. -/
def ExprStep (n : Nat) (st st' : PState) : Prop :=
  st'.toks = st.toks.drop n ∧
  st'.symbols = st.symbols ∧
  st'.header = st.header ∧
  (∀ t ∈ st.toks.take n, ¬ (t.kind = TokenType.LET ∨ t.kind = TokenType.INPUT))

/-- How `nl` transforms the state: only newline tokens are consumed. -/
def NlStep (n : Nat) (st st' : PState) : Prop :=
  st'.toks = st.toks.drop n ∧
  st'.symbols = st.symbols ∧
  st'.header = st.header ∧
  (∀ t ∈ st.toks.take n, t.kind = TokenType.NEWLINE)

/-- A parser phase bundled with the boundary condition that lets phases be
concatenated: the consumed chunk does not end in a LET or INPUT token. -/
def Chunk (n : Nat) (fresh : List String) (st st' : PState) : Prop :=
  StepOk n fresh st st' ∧ noLITail (st.toks.take n)

/-- Sources produced by `Lexer.__init__` end with the appended newline. -/
def NlEnd (l : List Char) : Prop := ∃ pre, l = pre ++ ['\n']

/-! ### Concrete runs of the embedded pipeline -/

example : compile "PRINT \"HELLO\"" =
    .ok ("#include <stdio.h>\nint main(void)\x7b\n",
         "printf(\"HELLO\\n\");\nreturn 0;\n\x7d\n") := by decide

example : compile "LET a = 3\nPRINT a" =
    .ok ("#include <stdio.h>\nint main(void)\x7b\nfloat a;\n",
         "a = 3;\nprintf(\"%.2f\\n\", (float)(a));\nreturn 0;\n\x7d\n") := by decide

example : compile "GOTO x\nLABEL x\nPRINT \"done\"" =
    .ok ("#include <stdio.h>\nint main(void)\x7b\n",
         "goto x;\nx:\nprintf(\"done\\n\");\nreturn 0;\n\x7d\n") := by decide

example : compile "GOTO y" = .err "Error Attempting to GOTO an undeclared label: y" := by decide

example : compile "PRINT a" = .err "Error Refrencing variable before assignment: a" := by decide

example : compile "IF 1 > 0 THEN\nPRINT \"yes\"\nENDIF" =
    .ok ("#include <stdio.h>\nint main(void)\x7b\n",
         "if(1>0)\x7b\nprintf(\"yes\\n\");\n\x7d\nreturn 0;\n\x7d\n") := by decide

example : compile "LET a = a" =
    .ok ("#include <stdio.h>\nint main(void)\x7b\nfloat a;\n",
         "a = a;\nreturn 0;\n\x7d\n") := by decide

example : compile "IF 1==2 THEN\nENDIF" =
    .ok ("#include <stdio.h>\nint main(void)\x7b\n",
         "if(1=2)\x7b\n\x7d\nreturn 0;\n\x7d\n") := by decide

example : getToken (LexState.init "+".data) = .tok ⟨"+", .PLUS⟩ ⟨"+\n".data, 1⟩ := by decide
example : getToken (LexState.init ">=".data) = .tok ⟨">=", .GTEQ⟩ ⟨">=\n".data, 2⟩ := by decide
example : getToken (LexState.init "==".data) = .tok ⟨"=", .EQEQ⟩ ⟨"==\n".data, 2⟩ := by decide
example : getToken (LexState.init "LET".data) = .tok ⟨"LET", .LET⟩ ⟨"LET\n".data, 3⟩ := by decide
example : getToken (LexState.init "foo1".data) = .tok ⟨"foo1", .IDENT⟩ ⟨"foo1\n".data, 4⟩ := by
  decide
example : getToken (LexState.init "3.14".data) = .tok ⟨"3.14", .NUMBER⟩ ⟨"3.14\n".data, 4⟩ := by
  decide
example : getToken (LexState.init "\"hi\"".data) = .tok ⟨"hi", .STRING⟩ ⟨"\"hi\"\n".data, 4⟩ := by
  decide
example : getToken (LexState.init " # c\nx".data) = .tok ⟨"\n", .NEWLINE⟩ ⟨" # c\nx\n".data, 5⟩ := by
  decide

/-! ### Lexer lemmas -/

theorem NlEnd.init (input : List Char) : NlEnd (LexState.init input).source :=
  ⟨input, rfl⟩

theorem NlEnd.length_pos {l : List Char} (h : NlEnd l) : 0 < l.length := by
  obtain ⟨pre, rfl⟩ := h; simp

theorem NlEnd.get_last {l : List Char} (h : NlEnd l) {j : Nat} (hj : j < l.length)
    (hj1 : j + 1 = l.length) : l.get ⟨j, hj⟩ = '\n' := by
  obtain ⟨pre, rfl⟩ := h
  simp only [List.length_append, List.length_singleton] at hj1
  have hjp : j = pre.length := by omega
  subst hjp
  simp [List.get_eq_getElem, List.getElem_append_right]

theorem NlEnd.illegal_last {l : List Char} (h : NlEnd l) {j : Nat} (hj : j < l.length)
    (hj1 : j + 1 = l.length) : isIllegalInString (l.get ⟨j, hj⟩) := by
  rw [h.get_last hj hj1]; decide

theorem curChar_eq_null {s : LexState} (h : s.source.length ≤ s.pos) :
    s.curChar = nullChar := by
  unfold LexState.curChar
  rw [dif_neg (by omega)]

theorem pos_lt_of_curChar_ne {s : LexState} (h : s.curChar ≠ nullChar) :
    s.pos < s.source.length := by
  by_contra hc
  exact h (curChar_eq_null (by omega))

theorem peek_eq_null {s : LexState} (h : s.source.length ≤ s.pos + 1) :
    s.peek = nullChar := by
  unfold LexState.peek
  rw [dif_neg (by omega)]

theorem pos_lt_of_peek_ne {s : LexState} (h : s.peek ≠ nullChar) :
    s.pos + 1 < s.source.length := by
  by_contra hc
  exact h (peek_eq_null (by omega))

theorem curChar_eq_get {s : LexState} (h : s.pos < s.source.length) :
    s.curChar = s.source.get ⟨s.pos, h⟩ := by
  unfold LexState.curChar
  rw [dif_pos h]

theorem nullChar_not_ws : ¬ isWs nullChar := by decide

theorem nullChar_not_digit : nullChar.isDigit = false := by decide

theorem nullChar_not_alphanum : nullChar.isAlphanum = false := by decide

theorem skipWhitespaceAux_spec (fuel : Nat) (s : LexState) :
    (skipWhitespaceAux fuel s).source = s.source ∧ s.pos ≤ (skipWhitespaceAux fuel s).pos := by
  induction fuel generalizing s with
  | zero => simp [skipWhitespaceAux]
  | succ f ih =>
    simp only [skipWhitespaceAux]
    split
    · obtain ⟨h1, h2⟩ := ih s.next
      exact ⟨h1, by simpa [LexState.next] using Nat.le_trans (Nat.le_succ _) h2⟩
    · exact ⟨rfl, Nat.le_refl _⟩

theorem skipWhitespace_spec (s : LexState) :
    (skipWhitespace s).source = s.source ∧ s.pos ≤ (skipWhitespace s).pos :=
  skipWhitespaceAux_spec _ s

theorem skipCommentAux_some {fuel : Nat} {s s' : LexState}
    (h : skipCommentAux fuel s = some s') :
    s'.source = s.source ∧ s.pos ≤ s'.pos ∧ s'.curChar = '\n' := by
  induction fuel generalizing s with
  | zero =>
    simp only [skipCommentAux] at h
    split at h
    · cases h; exact ⟨rfl, Nat.le_refl _, by assumption⟩
    · cases h
  | succ f ih =>
    simp only [skipCommentAux] at h
    split at h
    · cases h; exact ⟨rfl, Nat.le_refl _, by assumption⟩
    · obtain ⟨h1, h2, h3⟩ := ih h
      exact ⟨h1, by simp only [LexState.next] at h2; omega, h3⟩

theorem skipComment_some {s s' : LexState} (h : skipComment s = some s') :
    s'.source = s.source ∧ s.pos ≤ s'.pos := by
  unfold skipComment at h
  split at h
  · obtain ⟨h1, h2, _⟩ := skipCommentAux_some h
    exact ⟨h1, h2⟩
  · cases h; exact ⟨rfl, Nat.le_refl _⟩

theorem scanStringAux_ok {fuel : Nat} {s s' : LexState}
    (h : scanStringAux fuel s = .ok s') :
    s'.source = s.source ∧ s.pos ≤ s'.pos ∧ s'.curChar = '"' := by
  induction fuel generalizing s with
  | zero =>
    simp only [scanStringAux] at h
    split at h
    · cases h; exact ⟨rfl, Nat.le_refl _, by assumption⟩
    · split at h <;> cases h
  | succ f ih =>
    simp only [scanStringAux] at h
    split at h
    · cases h; exact ⟨rfl, Nat.le_refl _, by assumption⟩
    · split at h
      · cases h
      · obtain ⟨h1, h2, h3⟩ := ih h
        exact ⟨h1, by simp only [LexState.next] at h2; omega, h3⟩

theorem scanDigitsAux_spec (fuel : Nat) (s : LexState) :
    (scanDigitsAux fuel s).source = s.source ∧ s.pos ≤ (scanDigitsAux fuel s).pos ∧
      (s.pos < s.source.length → (scanDigitsAux fuel s).pos < s.source.length) := by
  induction fuel generalizing s with
  | zero => exact ⟨rfl, Nat.le_refl _, fun h => h⟩
  | succ f ih =>
    simp only [scanDigitsAux]
    split
    · obtain ⟨h1, h2, h3⟩ := ih s.next
      refine ⟨h1, by simp only [LexState.next] at h2 ⊢; omega, fun _ => ?_⟩
      apply h3
      have hpk : s.peek ≠ nullChar := by
        intro hc
        simp [hc, nullChar_not_digit] at *
      have := pos_lt_of_peek_ne hpk
      simp only [LexState.next]
      omega
    · exact ⟨rfl, Nat.le_refl _, fun h => h⟩

theorem scanAlnumAux_spec (fuel : Nat) (s : LexState) :
    (scanAlnumAux fuel s).source = s.source ∧ s.pos ≤ (scanAlnumAux fuel s).pos ∧
      (s.pos < s.source.length → (scanAlnumAux fuel s).pos < s.source.length) := by
  induction fuel generalizing s with
  | zero => exact ⟨rfl, Nat.le_refl _, fun h => h⟩
  | succ f ih =>
    simp only [scanAlnumAux]
    split
    · obtain ⟨h1, h2, h3⟩ := ih s.next
      refine ⟨h1, by simp only [LexState.next] at h2 ⊢; omega, fun _ => ?_⟩
      apply h3
      have hpk : s.peek ≠ nullChar := by
        intro hc
        simp [hc, nullChar_not_alphanum] at *
      have := pos_lt_of_peek_ne hpk
      simp only [LexState.next]
      omega
    · exact ⟨rfl, Nat.le_refl _, fun h => h⟩

theorem scanString_ok {s s' : LexState} (h : scanString s = .ok s') :
    s'.source = s.source ∧ s.pos ≤ s'.pos ∧ s'.curChar = '"' := by
  unfold scanString at h
  exact scanStringAux_ok h

theorem scanDigits_spec (s : LexState) :
    (scanDigits s).source = s.source ∧ s.pos ≤ (scanDigits s).pos ∧
      (s.pos < s.source.length → (scanDigits s).pos < s.source.length) :=
  scanDigitsAux_spec _ s

theorem scanAlnum_spec (s : LexState) :
    (scanAlnum s).source = s.source ∧ s.pos ≤ (scanAlnum s).pos ∧
      (s.pos < s.source.length → (scanAlnum s).pos < s.source.length) :=
  scanAlnumAux_spec _ s

/-- One step of the `get_token` conclusion: the returned state is `X.next` for
the state `X` where the lexeme ended. -/
theorem tok_step {s0 X : LexState} (k : TokenType)
    (hsrc : X.source = s0.source) (hge : s0.pos ≤ X.pos)
    (hb : k ≠ .EOF → X.pos < s0.source.length) :
    X.next.source = s0.source ∧ s0.pos < X.next.pos ∧
      (k ≠ .EOF → X.next.pos ≤ s0.source.length) := by
  refine ⟨hsrc, ?_, fun hk => ?_⟩
  · simp only [LexState.next]
    omega
  · have := hb hk
    simp only [LexState.next]
    omega
/-- Specialization of `tok_step` to a token ending at the dispatch position. -/
theorem tok_step_cur {s0 s : LexState} (k : TokenType)
    (hsrc : s.source = s0.source) (hpos : s0.pos ≤ s.pos)
    (hcc : s.curChar ≠ nullChar) :
    s.next.source = s0.source ∧ s0.pos < s.next.pos ∧
      (k ≠ .EOF → s.next.pos ≤ s0.source.length) :=
  tok_step k hsrc hpos (fun _ => by
    have hlt := pos_lt_of_curChar_ne hcc
    rw [hsrc] at hlt
    exact hlt)

/-- Specialization of `tok_step` to a two-character token. -/
theorem tok_step_peek {s0 s : LexState} (k : TokenType)
    (hsrc : s.source = s0.source) (hpos : s0.pos ≤ s.pos)
    (hpk : s.peek ≠ nullChar) :
    s.next.next.source = s0.source ∧ s0.pos < s.next.next.pos ∧
      (k ≠ .EOF → s.next.next.pos ≤ s0.source.length) :=
  tok_step k (show s.next.source = s0.source from hsrc) (le_trans hpos (Nat.le_succ s.pos))
    (fun _ => by
      have hlt := pos_lt_of_peek_ne hpk
      rw [hsrc] at hlt
      exact hlt)

/-- Any token-producing `get_token` call keeps the source, strictly advances
the offset, and, unless the token is the end-of-input token, leaves the offset
at most the source length. -/
theorem getToken_tok {s0 : LexState} {t : Token} {u : LexState}
    (h : getToken s0 = .tok t u) :
    u.source = s0.source ∧ s0.pos < u.pos ∧
      (t.kind ≠ .EOF → u.pos ≤ s0.source.length) := by
  unfold getToken at h
  obtain ⟨hw1, hw2⟩ := skipWhitespace_spec s0
  split at h
  case _ => cases h
  case _ s hcs =>
    obtain ⟨hc1, hc2⟩ := skipComment_some hcs
    have hsrc : s.source = s0.source := hc1.trans hw1
    have hpos : s0.pos ≤ s.pos := le_trans hw2 hc2
    by_cases k1 : s.curChar = '+'
    · rw [if_pos k1] at h; cases h
      exact tok_step_cur _ hsrc hpos (by rw [k1]; decide)
    rw [if_neg k1] at h
    by_cases k2 : s.curChar = '-'
    · rw [if_pos k2] at h; cases h
      exact tok_step_cur _ hsrc hpos (by rw [k2]; decide)
    rw [if_neg k2] at h
    by_cases k3 : s.curChar = '*'
    · rw [if_pos k3] at h; cases h
      exact tok_step_cur _ hsrc hpos (by rw [k3]; decide)
    rw [if_neg k3] at h
    by_cases k4 : s.curChar = '/'
    · rw [if_pos k4] at h; cases h
      exact tok_step_cur _ hsrc hpos (by rw [k4]; decide)
    rw [if_neg k4] at h
    by_cases k5 : s.curChar = '='
    · rw [if_pos k5] at h
      by_cases p5 : s.peek = '='
      · rw [if_pos p5] at h; cases h
        exact tok_step_peek _ hsrc hpos (by rw [p5]; decide)
      · rw [if_neg p5] at h; cases h
        exact tok_step_cur _ hsrc hpos (by rw [k5]; decide)
    rw [if_neg k5] at h
    by_cases k6 : s.curChar = '>'
    · rw [if_pos k6] at h
      by_cases p6 : s.peek = '='
      · rw [if_pos p6] at h; cases h
        exact tok_step_peek _ hsrc hpos (by rw [p6]; decide)
      · rw [if_neg p6] at h; cases h
        exact tok_step_cur _ hsrc hpos (by rw [k6]; decide)
    rw [if_neg k6] at h
    by_cases k7 : s.curChar = '<'
    · rw [if_pos k7] at h
      by_cases p7 : s.peek = '='
      · rw [if_pos p7] at h; cases h
        exact tok_step_peek _ hsrc hpos (by rw [p7]; decide)
      · rw [if_neg p7] at h; cases h
        exact tok_step_cur _ hsrc hpos (by rw [k7]; decide)
    rw [if_neg k7] at h
    by_cases k8 : s.curChar = '!'
    · rw [if_pos k8] at h
      by_cases p8 : s.peek = '='
      · rw [if_pos p8] at h; cases h
        exact tok_step_peek _ hsrc hpos (by rw [p8]; decide)
      · rw [if_neg p8] at h; cases h
    rw [if_neg k8] at h
    by_cases k9 : s.curChar = '"'
    · rw [if_pos k9] at h
      cases hscan : scanString s.next with
      | ok s2 =>
        rw [hscan] at h; cases h
        obtain ⟨h1, h2, h3⟩ := scanString_ok hscan
        have hs2 : s2.source = s0.source := by rw [h1]; exact hsrc
        refine tok_step _ hs2 ?_ (fun _ => ?_)
        · exact le_trans hpos (le_trans (Nat.le_succ s.pos) h2)
        · have hlt := pos_lt_of_curChar_ne (s := s2) (by rw [h3]; decide)
          rw [hs2] at hlt; exact hlt
      | abort m => rw [hscan] at h; cases h
      | hang => rw [hscan] at h; cases h
    rw [if_neg k9] at h
    by_cases k10 : s.curChar.isDigit = true
    · rw [if_pos k10] at h
      have hcn : s.curChar ≠ nullChar := fun hcc => by
        rw [hcc] at k10; exact absurd k10 (by decide)
      obtain ⟨d1, e1, f1⟩ := scanDigits_spec s
      have hlt1 : (scanDigits s).pos < s.source.length := f1 (pos_lt_of_curChar_ne hcn)
      by_cases kdot : (scanDigits s).peek = '.'
      · rw [if_pos kdot] at h
        have hpn : (scanDigits s).peek ≠ nullChar := by rw [kdot]; decide
        have hlt2 := pos_lt_of_peek_ne hpn
        rw [d1] at hlt2
        obtain ⟨d2, e2, f2⟩ := scanDigits_spec (scanDigits s).next
        have hns : (scanDigits s).next.source = s.source := by
          show (scanDigits s).source = s.source
          exact d1
        have hlt3 : (scanDigits (scanDigits s).next).pos < s.source.length := by
          have hx := f2 (by
            show (scanDigits s).pos + 1 < (scanDigits s).source.length
            rw [d1]; exact hlt2)
          rw [hns] at hx
          exact hx
        by_cases kfr : (scanDigits s).next.peek.isDigit = true
        · rw [if_neg (not_not_intro kfr)] at h
          cases h
          refine tok_step _ ?_ ?_ (fun _ => ?_)
          · rw [d2]
            rw [hns]; exact hsrc
          · refine le_trans hpos (le_trans e1 (le_trans ?_ e2))
            exact Nat.le_succ _
          · rw [hsrc] at hlt3; exact hlt3
        · rw [if_pos kfr] at h; cases h
      · rw [if_neg kdot] at h
        cases h
        refine tok_step _ (d1.trans hsrc) (le_trans hpos e1) (fun _ => ?_)
        rw [hsrc] at hlt1; exact hlt1
    rw [if_neg k10] at h
    by_cases k11 : s.curChar.isAlpha = true
    · rw [if_pos k11] at h
      have hcn : s.curChar ≠ nullChar := fun hcc => by
        rw [hcc] at k11; exact absurd k11 (by decide)
      obtain ⟨d1, e1, f1⟩ := scanAlnum_spec s
      have hlt1 : (scanAlnum s).pos < s.source.length := f1 (pos_lt_of_curChar_ne hcn)
      cases hkw : Token.is_keyword (sliceStr (scanAlnum s).source s.pos ((scanAlnum s).pos + 1))
        with
      | none =>
        rw [hkw] at h; cases h
        refine tok_step _ (d1.trans hsrc) (le_trans hpos e1) (fun _ => ?_)
        rw [hsrc] at hlt1; exact hlt1
      | some kw =>
        rw [hkw] at h; cases h
        refine tok_step _ (d1.trans hsrc) (le_trans hpos e1) (fun _ => ?_)
        rw [hsrc] at hlt1; exact hlt1
    rw [if_neg k11] at h
    by_cases k12 : s.curChar = '\n'
    · rw [if_pos k12] at h; cases h
      exact tok_step_cur _ hsrc hpos (by rw [k12]; decide)
    rw [if_neg k12] at h
    by_cases k13 : s.curChar = nullChar
    · rw [if_pos k13] at h; cases h
      exact tok_step _ hsrc hpos (fun hne => absurd rfl hne)
    rw [if_neg k13] at h
    cases h

/-- Past the end of the source `get_token` produces the end-of-input token and
still performs its trailing advance. -/
theorem getToken_at_end {s : LexState} (h : s.source.length ≤ s.pos) :
    getToken s = .tok ⟨String.singleton nullChar, .EOF⟩ s.next := by
  have hcur : s.curChar = nullChar := curChar_eq_null h
  have hws : skipWhitespace s = s := by
    unfold skipWhitespace
    have hz : s.source.length - s.pos = 0 := by omega
    rw [hz]
    simp [skipWhitespaceAux]
  have hsc : skipComment s = some s := by
    unfold skipComment
    rw [if_neg (by rw [hcur]; decide)]
  unfold getToken
  rw [hws, hsc]
  simp only [hcur]
  simp +decide

/-- The comment loop finds a newline when one lies ahead. -/
theorem skipCommentAux_ne_none {fuel : Nat} {s : LexState}
    (hf : s.source.length - s.pos ≤ fuel)
    (hex : ∃ j, s.pos ≤ j ∧ ∃ hj : j < s.source.length, s.source.get ⟨j, hj⟩ = '\n') :
    skipCommentAux fuel s ≠ none := by
  induction fuel generalizing s with
  | zero =>
    obtain ⟨j, hj1, hj2, hj3⟩ := hex
    exact absurd hj2 (by omega)
  | succ f ih =>
    show (if s.curChar = '\n' then some s else skipCommentAux f s.next) ≠ none
    split
    · simp
    · rename_i hne
      apply ih
      · simp only [LexState.next]; omega
      · obtain ⟨j, hj1, hj2, hj3⟩ := hex
        refine ⟨j, ?_, hj2, hj3⟩
        rcases Nat.lt_or_ge s.pos j with hlt | hge
        · simpa [LexState.next] using hlt
        · exfalso
          have hj0 : j = s.pos := by omega
          subst hj0
          exact hne (by rw [curChar_eq_get hj2]; exact hj3)

/-- The string scan stops when a quote or an illegal character lies ahead. -/
theorem scanStringAux_ne_hang {fuel : Nat} {s : LexState}
    (hf : s.source.length - s.pos ≤ fuel)
    (hex : ∃ j, s.pos ≤ j ∧ ∃ hj : j < s.source.length,
      (s.source.get ⟨j, hj⟩ = '"' ∨ isIllegalInString (s.source.get ⟨j, hj⟩))) :
    scanStringAux fuel s ≠ .hang := by
  induction fuel generalizing s with
  | zero =>
    obtain ⟨j, hj1, hj2, hj3⟩ := hex
    exact absurd hj2 (by omega)
  | succ f ih =>
    show (if s.curChar = '"' then ScanRes.ok s
      else if isIllegalInString s.curChar then ScanRes.abort "Illegal character in string."
      else scanStringAux f s.next) ≠ .hang
    split
    · simp
    · rename_i hq
      split
      · simp
      · rename_i hill
        apply ih
        · simp only [LexState.next]; omega
        · obtain ⟨j, hj1, hj2, hj3⟩ := hex
          refine ⟨j, ?_, hj2, hj3⟩
          rcases Nat.lt_or_ge s.pos j with hlt | hge
          · simpa [LexState.next] using hlt
          · exfalso
            have hj0 : j = s.pos := by omega
            subst hj0
            rw [← curChar_eq_get hj2] at hj3
            rcases hj3 with h3 | h3
            · exact hq h3
            · exact hill h3

/-- With the newline terminator in place, `get_token` never diverges. -/
theorem getToken_no_hang {s0 : LexState} (hnl : NlEnd s0.source) : getToken s0 ≠ .hang := by
  intro hcontra
  unfold getToken at hcontra
  obtain ⟨hw1, hw2⟩ := skipWhitespace_spec s0
  have hlenpos : 0 < s0.source.length := hnl.length_pos
  split at hcontra
  case _ hsc =>
    unfold skipComment at hsc
    split at hsc
    · rename_i hsh
      refine skipCommentAux_ne_none (le_refl _) ?_ hsc
      have hlt : (skipWhitespace s0).pos < (skipWhitespace s0).source.length :=
        pos_lt_of_curChar_ne (by rw [hsh]; decide)
      refine ⟨(skipWhitespace s0).source.length - 1, by omega, by omega, ?_⟩
      have hnl' : NlEnd (skipWhitespace s0).source := by rw [hw1]; exact hnl
      exact hnl'.get_last (by omega) (by omega)
    · cases hsc
  case _ s hsc =>
    obtain ⟨hc1, hc2⟩ := skipComment_some hsc
    have hsrc : s.source = s0.source := hc1.trans hw1
    by_cases k1 : s.curChar = '+'
    · rw [if_pos k1] at hcontra; cases hcontra
    rw [if_neg k1] at hcontra
    by_cases k2 : s.curChar = '-'
    · rw [if_pos k2] at hcontra; cases hcontra
    rw [if_neg k2] at hcontra
    by_cases k3 : s.curChar = '*'
    · rw [if_pos k3] at hcontra; cases hcontra
    rw [if_neg k3] at hcontra
    by_cases k4 : s.curChar = '/'
    · rw [if_pos k4] at hcontra; cases hcontra
    rw [if_neg k4] at hcontra
    by_cases k5 : s.curChar = '='
    · rw [if_pos k5] at hcontra
      by_cases p5 : s.peek = '='
      · rw [if_pos p5] at hcontra; cases hcontra
      · rw [if_neg p5] at hcontra; cases hcontra
    rw [if_neg k5] at hcontra
    by_cases k6 : s.curChar = '>'
    · rw [if_pos k6] at hcontra
      by_cases p6 : s.peek = '='
      · rw [if_pos p6] at hcontra; cases hcontra
      · rw [if_neg p6] at hcontra; cases hcontra
    rw [if_neg k6] at hcontra
    by_cases k7 : s.curChar = '<'
    · rw [if_pos k7] at hcontra
      by_cases p7 : s.peek = '='
      · rw [if_pos p7] at hcontra; cases hcontra
      · rw [if_neg p7] at hcontra; cases hcontra
    rw [if_neg k7] at hcontra
    by_cases k8 : s.curChar = '!'
    · rw [if_pos k8] at hcontra
      by_cases p8 : s.peek = '='
      · rw [if_pos p8] at hcontra; cases hcontra
      · rw [if_neg p8] at hcontra; cases hcontra
    rw [if_neg k8] at hcontra
    by_cases k9 : s.curChar = '"'
    · rw [if_pos k9] at hcontra
      cases hscan : scanString s.next with
      | ok s2 => rw [hscan] at hcontra; cases hcontra
      | abort m => rw [hscan] at hcontra; cases hcontra
      | hang =>
        have hplt : s.pos < s.source.length := pos_lt_of_curChar_ne (by rw [k9]; decide)
        have hlast : s.pos + 1 < s.source.length := by
          rcases Nat.lt_or_ge (s.pos + 1) s.source.length with hx | hx
          · exact hx
          · exfalso
            have hp1 : s.pos = s.source.length - 1 := by omega
            have hnl' : NlEnd s.source := by rw [hsrc]; exact hnl
            have := hnl'.get_last (j := s.pos) hplt (by omega)
            rw [← curChar_eq_get hplt] at this
            rw [k9] at this
            cases this
        unfold scanString at hscan
        refine scanStringAux_ne_hang (le_refl _) ?_ hscan
        have hnl' : NlEnd s.source := by rw [hsrc]; exact hnl
        have hnl2 : NlEnd s.next.source := hnl'
        refine ⟨s.source.length - 1, ?_, ?_, ?_⟩
        · show s.pos + 1 ≤ s.source.length - 1
          omega
        · show s.source.length - 1 < s.source.length
          omega
        · have hlen2 : s.next.source.length = s.source.length := rfl
          exact Or.inr (hnl2.illegal_last (by rw [hlen2]; omega) (by rw [hlen2]; omega))
    rw [if_neg k9] at hcontra
    by_cases k10 : s.curChar.isDigit = true
    · rw [if_pos k10] at hcontra
      by_cases kdot : (scanDigits s).peek = '.'
      · rw [if_pos kdot] at hcontra
        by_cases kfr : (scanDigits s).next.peek.isDigit = true
        · rw [if_neg (not_not_intro kfr)] at hcontra; cases hcontra
        · rw [if_pos kfr] at hcontra; cases hcontra
      · rw [if_neg kdot] at hcontra; cases hcontra
    rw [if_neg k10] at hcontra
    by_cases k11 : s.curChar.isAlpha = true
    · rw [if_pos k11] at hcontra
      cases hkw : Token.is_keyword (sliceStr (scanAlnum s).source s.pos ((scanAlnum s).pos + 1))
        with
      | none => rw [hkw] at hcontra; cases hcontra
      | some kw => rw [hkw] at hcontra; cases hcontra
    rw [if_neg k11] at hcontra
    by_cases k12 : s.curChar = '\n'
    · rw [if_pos k12] at hcontra; cases hcontra
    rw [if_neg k12] at hcontra
    by_cases k13 : s.curChar = nullChar
    · rw [if_pos k13] at hcontra; cases hcontra
    rw [if_neg k13] at hcontra
    cases hcontra

/-- With the newline terminator and enough fuel, tokenization settles. -/
theorem lexAllF_settled {fuel : Nat} {s : LexState} (hnl : NlEnd s.source)
    (hf : s.source.length + 2 - s.pos ≤ fuel) (hf1 : 1 ≤ fuel) :
    (lexAllF fuel s).settled = true := by
  induction fuel generalizing s with
  | zero => exact absurd hf1 (by omega)
  | succ f ih =>
    cases hgt : getToken s with
    | err m => simp [lexAllF, hgt, Outcome.settled]
    | hang => exact absurd hgt (getToken_no_hang hnl)
    | tok t s1 =>
      obtain ⟨hsrc1, hpos1, hbound1⟩ := getToken_tok hgt
      have hnl1 : NlEnd s1.source := by rw [hsrc1]; exact hnl
      by_cases heof : t.kind = TokenType.EOF
      · cases hgt2 : getToken s1 with
        | err m => simp [lexAllF, hgt, heof, hgt2, Outcome.settled]
        | hang => exact absurd hgt2 (getToken_no_hang hnl1)
        | tok t2 s2 => simp [lexAllF, hgt, heof, hgt2, Outcome.settled]
      · have hlt : s.pos < s.source.length := by
          by_contra hge
          have hend := getToken_at_end (s := s) (by omega)
          rw [hend] at hgt
          cases hgt
          exact heof rfl
        have ihr := ih hnl1 (by rw [hsrc1]; omega) (by omega)
        cases hr : lexAllF f s1 with
        | ok ts => simp [lexAllF, hgt, heof, hr, Outcome.settled]
        | err m => simp [lexAllF, hgt, heof, hr, Outcome.settled]
        | hang => rw [hr] at ihr; simp [Outcome.settled] at ihr
        | fuelOut => rw [hr] at ihr; simp [Outcome.settled] at ihr

/-- The token stream is at most as long as the fuel spent producing it. -/
theorem lexAllF_length {fuel : Nat} {s : LexState} {ts : List Token}
    (h : lexAllF fuel s = .ok ts) : ts.length ≤ fuel := by
  induction fuel generalizing s ts with
  | zero => cases h
  | succ f ih =>
    simp only [lexAllF] at h
    cases hgt : getToken s with
    | err m => simp only [hgt] at h; cases h
    | hang => simp only [hgt] at h; cases h
    | tok t s1 =>
      simp only [hgt] at h
      by_cases heof : t.kind = TokenType.EOF
      · rw [if_pos heof] at h
        cases hgt2 : getToken s1 with
        | err m => simp only [hgt2] at h; cases h
        | hang => simp only [hgt2] at h; cases h
        | tok t2 s2 =>
          simp only [hgt2] at h
          cases h
          simp
      · rw [if_neg heof] at h
        cases hr : lexAllF f s1 with
        | ok ts1 =>
          simp only [hr] at h
          cases h
          have := ih hr
          simp only [List.length_cons]
          omega
        | err m => simp only [hr] at h; cases h
        | hang => simp only [hr] at h; cases h
        | fuelOut => simp only [hr] at h; cases h

theorem skipWhitespace_eq_self {s : LexState} (h : ¬ isWs s.curChar) :
    skipWhitespace s = s := by
  unfold skipWhitespace
  cases hf : s.source.length - s.pos with
  | zero => simp [skipWhitespaceAux]
  | succ f => simp [skipWhitespaceAux, h]

/-- If no closing quote lies ahead, the string scan aborts on the first
illegal character; the newline terminator guarantees there is one. -/
theorem scanStringAux_aborts {fuel : Nat} {s : LexState} (hnl : NlEnd s.source)
    (hf : s.source.length - s.pos ≤ fuel) (hpos : s.pos < s.source.length)
    (hq : ∀ (j : Nat) (hj : j < s.source.length), s.pos ≤ j → s.source.get ⟨j, hj⟩ ≠ '"') :
    scanStringAux fuel s = .abort "Illegal character in string." := by
  induction fuel generalizing s with
  | zero => exact absurd hpos (by omega)
  | succ f ih =>
    show (if s.curChar = '"' then ScanRes.ok s
      else if isIllegalInString s.curChar then ScanRes.abort "Illegal character in string."
      else scanStringAux f s.next) = ScanRes.abort "Illegal character in string."
    have hqcur : ¬ (s.curChar = '"') := by
      rw [curChar_eq_get hpos]
      exact hq s.pos hpos (le_refl _)
    rw [if_neg hqcur]
    by_cases hill : isIllegalInString s.curChar
    · rw [if_pos hill]
    · rw [if_neg hill]
      have hp1 : s.pos + 1 < s.source.length := by
        rcases Nat.lt_or_ge (s.pos + 1) s.source.length with hx | hx
        · exact hx
        · exfalso
          have hg := hnl.get_last (j := s.pos) hpos (by omega)
          rw [← curChar_eq_get hpos] at hg
          rw [hg] at hill
          exact hill (by decide)
      apply ih
      · exact hnl
      · show s.source.length - (s.pos + 1) ≤ f
        omega
      · exact hp1
      · intro j hj hge
        exact hq j hj (by
          have hx : s.pos + 1 ≤ j := hge
          omega)

/-- Wrapper form of `scanStringAux_aborts`. -/
theorem scanString_aborts {s : LexState} (hnl : NlEnd s.source)
    (hpos : s.pos < s.source.length)
    (hq : ∀ (j : Nat) (hj : j < s.source.length), s.pos ≤ j → s.source.get ⟨j, hj⟩ ≠ '"') :
    scanString s = .abort "Illegal character in string." :=
  scanStringAux_aborts hnl (le_refl _) hpos hq

/-- Tokenizing a whole input with the default fuel always settles. -/
theorem lexProgram_settled (input : String) : (lexProgram input).settled = true := by
  unfold lexProgram
  apply lexAllF_settled (NlEnd.init input.data)
  · simp only [LexState.init, List.length_append, List.length_singleton]
    have : input.data.length = input.length := rfl
    omega
  · omega

/-! ### Claims C1, C5, C6, C8 -/

/-- C1: the claim says every two-character operator lexeme yields a token
whose text is the full lexeme, and that the comparison rule emits that lexeme.
The code contradicts it for `==`: `lex.py` line 99 builds the `EQEQ` token
from `last_char` alone, so its text is `=`, while `>=`, `<=` and `!=` do carry
both characters; consequently a comparison `1==2` is emitted as `1=2`. -/
theorem c1_eqeq_lexeme_bug :
    getToken (LexState.init "==".data) = .tok ⟨"=", .EQEQ⟩ ⟨"==\n".data, 2⟩ ∧
    getToken (LexState.init ">=".data) = .tok ⟨">=", .GTEQ⟩ ⟨">=\n".data, 2⟩ ∧
    getToken (LexState.init "<=".data) = .tok ⟨"<=", .LTEQ⟩ ⟨"<=\n".data, 2⟩ ∧
    getToken (LexState.init "!=".data) = .tok ⟨"!=", .NOTEQ⟩ ⟨"!=\n".data, 2⟩ ∧
    compile "IF 1==2 THEN\nENDIF" =
      .ok ("#include <stdio.h>\nint main(void)\x7b\n",
           "if(1=2)\x7b\n\x7d\nreturn 0;\n\x7d\n") := by
  decide

/-- C5: carriage return, tab, newline and percent in a string literal abort
with the illegal-character diagnostic, but the two-character comment-marker
member `"//"` of the Python tuple can never equal a single character, so a
string containing `//` lexes successfully, contradicting the claim. -/
theorem c5_illegal_string_chars_bug :
    getToken (LexState.init "\"a\rb\"".data) = .err "Lexing error. Illegal character in string." ∧
    getToken (LexState.init "\"a\tb\"".data) = .err "Lexing error. Illegal character in string." ∧
    getToken (LexState.init "\"a\nb\"".data) = .err "Lexing error. Illegal character in string." ∧
    getToken (LexState.init "\"a%b\"".data) = .err "Lexing error. Illegal character in string." ∧
    getToken (LexState.init "\"a//b\"".data) = .tok ⟨"a//b", .STRING⟩ ⟨"\"a//b\"\n".data, 6⟩ := by
  decide

/-- C6 (counterexample): on an unterminated string literal the lexer fails
with the illegal-character diagnostic (raised at the appended newline
terminator), not with an unterminated-string diagnostic as the claim says —
no such diagnostic exists in the code. -/
theorem c6_unterminated_counterexample :
    getToken (LexState.init "\"abc".data) = .err "Lexing error. Illegal character in string." ∧
    "Lexing error. Illegal character in string." ≠ "Lexing error. Unterminated string." := by
  decide

/-- C6 (amended): if a string literal is opened and no closing quote occurs
later in the source, the scan reaches the appended newline terminator (or an
earlier illegal character) and fails with `Lexing error. Illegal character in
string.`; end of input is never reached during a string scan. -/
theorem c6_unterminated_amended (s : LexState) (hnl : NlEnd s.source)
    (hcur : s.curChar = '"')
    (hq : ∀ (j : Nat) (hj : j < s.source.length), s.pos < j → s.source.get ⟨j, hj⟩ ≠ '"') :
    getToken s = .err "Lexing error. Illegal character in string." := by
  have hws : skipWhitespace s = s := skipWhitespace_eq_self (by rw [hcur]; decide)
  have hsc : skipComment s = some s := by
    unfold skipComment
    rw [if_neg (by rw [hcur]; decide)]
  have hpos : s.pos < s.source.length := pos_lt_of_curChar_ne (by rw [hcur]; decide)
  have habort : scanString s.next = .abort "Illegal character in string." := by
    have hp1 : s.pos + 1 < s.source.length := by
      rcases Nat.lt_or_ge (s.pos + 1) s.source.length with hx | hx
      · exact hx
      · exfalso
        have hg := hnl.get_last (j := s.pos) hpos (by omega)
        rw [← curChar_eq_get hpos] at hg
        rw [hcur] at hg
        cases hg
    apply scanString_aborts
    · exact hnl
    · show s.pos + 1 < s.source.length
      exact hp1
    · intro j hj hge
      have hx : s.pos + 1 ≤ j := hge
      exact hq j hj (by omega)
  unfold getToken
  rw [hws, hsc]
  simp only [hcur, habort]
  simp +decide

/-- C6 (amended), witnessed at the concrete unterminated literal `"abc`. -/
theorem c6_unterminated_amended_witness :
    getToken (LexState.init "\"abc".data) = .err "Lexing error. Illegal character in string." := by
  apply c6_unterminated_amended (LexState.init "\"abc".data) ⟨"\"abc".data, rfl⟩ (by decide)
  have hdec : ∀ j : Fin ((LexState.init "\"abc".data).source.length),
      0 < j.val → (LexState.init "\"abc".data).source.get j ≠ '"' := by decide
  intro j hj h0
  exact hdec ⟨j, hj⟩ h0

/-- C8 (counterexample): for the empty input the newline-terminated source has
length 1; producing the newline token leaves the offset at 1 (the source
length), but producing the end-of-input token advances the offset to 2, which
is neither a valid index nor the source length, contradicting the claimed
invariant scope "up to and including the end-of-input token". -/
theorem c8_offset_invariant_counterexample :
    LexState.init [] = ⟨['\n'], 0⟩ ∧
    getToken ⟨['\n'], 0⟩ = .tok ⟨"\n", .NEWLINE⟩ ⟨['\n'], 1⟩ ∧
    getToken ⟨['\n'], 1⟩ = .tok ⟨String.singleton nullChar, .EOF⟩ ⟨['\n'], 2⟩ ∧
    ¬ ((2 : Nat) ≤ (['\n'] : List Char).length) := by
  decide

/-- C8 (amended): after construction the offset is 0, a valid index of the
newline-terminated source; every `get_token` call that returns a token other
than the end-of-input token leaves the offset at most the source length; the
call that produces the end-of-input token (made with the offset at or past the
source length) advances the offset one further, to `length + 1` the first
time. -/
theorem c8_offset_invariant_amended :
    (∀ input : List Char,
      (LexState.init input).pos = 0 ∧ 0 < (LexState.init input).source.length) ∧
    (∀ (s u : LexState) (t : Token),
      getToken s = .tok t u → t.kind ≠ .EOF → u.pos ≤ s.source.length) ∧
    (∀ s : LexState, s.source.length ≤ s.pos →
      getToken s = .tok ⟨String.singleton nullChar, .EOF⟩ s.next) := by
  refine ⟨fun input => ⟨rfl, ?_⟩, fun s u t h hne => (getToken_tok h).2.2 hne,
    fun s h => getToken_at_end h⟩
  simp [LexState.init]

/-- C8 (amended), witnessed on concrete states. -/
theorem c8_offset_invariant_amended_witness :
    (1 : Nat) ≤ ("+\n".data).length ∧
    getToken ⟨['\n'], 1⟩ = .tok ⟨String.singleton nullChar, .EOF⟩ ⟨['\n'], 2⟩ :=
  ⟨c8_offset_invariant_amended.2.1 (LexState.init "+".data) ⟨"+\n".data, 1⟩ ⟨"+", .PLUS⟩
      (by decide) (by decide),
   c8_offset_invariant_amended.2.2 ⟨['\n'], 1⟩ (by decide)⟩

/-! ### Parser lemmas and claims C2, C3, C9 -/

/-- The final check loop accepts exactly when every listed label is declared. -/
theorem labelCheck_ok_iff (xs d : List String) :
    labelCheck xs d = .ok () ↔ ∀ x ∈ xs, x ∈ d := by
  induction xs with
  | nil => simp [labelCheck]
  | cons a rest ih =>
    simp only [labelCheck]
    by_cases ha : a ∈ d
    · rw [if_pos ha]
      rw [ih]
      simp [ha]
    · rw [if_neg ha]
      constructor
      · intro h; cases h
      · intro hall
        exact absurd (hall a (List.mem_cons_self a rest)) ha

/-- A failing check names some jumped-to label that was never declared. -/
theorem labelCheck_err {xs d : List String} {m : String} (h : labelCheck xs d = .err m) :
    ∃ l, l ∈ xs ∧ l ∉ d ∧ m = "Error Attempting to GOTO an undeclared label: " ++ l := by
  induction xs with
  | nil => cases h
  | cons a rest ih =>
    simp only [labelCheck] at h
    by_cases ha : a ∈ d
    · rw [if_pos ha] at h
      obtain ⟨l, h1, h2, h3⟩ := ih h
      exact ⟨l, by simp [h1], h2, h3⟩
    · rw [if_neg ha] at h
      cases h
      exact ⟨a, by simp, ha, rfl⟩

/-- The check loop either accepts or aborts; it cannot diverge or run out. -/
theorem labelCheck_total (xs d : List String) :
    labelCheck xs d = .ok () ∨ ∃ m, labelCheck xs d = .err m := by
  induction xs with
  | nil => exact Or.inl rfl
  | cons a rest ih =>
    simp only [labelCheck]
    by_cases ha : a ∈ d
    · rw [if_pos ha]; exact ih
    · rw [if_neg ha]; exact Or.inr ⟨_, rfl⟩

/-- C2: the label-consistency check runs once, after the whole program has
been parsed and the closing scaffolding emitted (`programF` is the
body-then-check composition); given that the body phase succeeded,
compilation fails exactly when some name in `labels_gotoed` is missing from
`labels_declared`, and any failure carries the undeclared-label diagnostic.
Concretely, a GOTO textually before its LABEL compiles, a declared label that
is never jumped to is no error, and a never-declared GOTO target fails. -/
theorem c2_label_check :
    (∀ (f : Nat) (ord : List String → List String) (ts : List Token) (st : PState),
      (∀ (xs : List String) (x : String), x ∈ ord xs ↔ x ∈ xs) →
      programBodyF f ts = .ok st →
      (((∃ m, programF f ord ts = .err m) ↔
         ∃ l, l ∈ st.labels_gotoed ∧ l ∉ st.labels_declared) ∧
       ((∀ l ∈ st.labels_gotoed, l ∈ st.labels_declared) → programF f ord ts = .ok st) ∧
       (∀ m, programF f ord ts = .err m →
         ∃ l, l ∈ st.labels_gotoed ∧ l ∉ st.labels_declared ∧
           m = "Error Attempting to GOTO an undeclared label: " ++ l))) ∧
    compile "GOTO x\nLABEL x\nPRINT \"done\"" =
      .ok ("#include <stdio.h>\nint main(void)\x7b\n",
           "goto x;\nx:\nprintf(\"done\\n\");\nreturn 0;\n\x7d\n") ∧
    compile "LABEL x" =
      .ok ("#include <stdio.h>\nint main(void)\x7b\n", "x:\nreturn 0;\n\x7d\n") ∧
    compile "GOTO y" = .err "Error Attempting to GOTO an undeclared label: y" := by
  refine ⟨?_, by decide, by decide, by decide⟩
  intro f ord ts st hord hbody
  have hpf : programF f ord ts =
      (labelCheck (ord st.labels_gotoed) st.labels_declared).bind (fun _ => .ok st) := by
    unfold programF
    rw [hbody]
    rfl
  rcases labelCheck_total (ord st.labels_gotoed) st.labels_declared with hok | ⟨m, herr⟩
  · have hres : programF f ord ts = .ok st := by rw [hpf, hok]; rfl
    have hall : ∀ l ∈ st.labels_gotoed, l ∈ st.labels_declared := by
      intro l hl
      exact (labelCheck_ok_iff _ _).mp hok l ((hord _ l).mpr hl)
    refine ⟨?_, fun _ => hres, ?_⟩
    · constructor
      · rintro ⟨m, hm⟩
        rw [hres] at hm
        cases hm
      · rintro ⟨l, hl1, hl2⟩
        exact absurd (hall l hl1) hl2
    · intro m hm
      rw [hres] at hm
      cases hm
  · have hres : programF f ord ts = .err m := by rw [hpf, herr]; rfl
    obtain ⟨l, hl1, hl2, hl3⟩ := labelCheck_err herr
    refine ⟨?_, ?_, ?_⟩
    · constructor
      · rintro ⟨m', hm'⟩
        exact ⟨l, (hord _ l).mp hl1, hl2⟩
      · intro hex
        exact ⟨m, hres⟩
    · intro hall
      exact absurd (hall l ((hord _ l).mp hl1)) hl2
    · intro m' hm'
      rw [hres] at hm'
      cases hm'
      exact ⟨l, (hord _ l).mp hl1, hl2, hl3⟩

/-- C2, witnessed on the program `GOTO y` whose body phase succeeds and whose
jumped-to label is never declared. -/
theorem c2_label_check_witness :
    ∃ m, programF 20 id
      [⟨"GOTO", .GOTO⟩, ⟨"y", .IDENT⟩, ⟨"\n", .NEWLINE⟩, ⟨"\x00", .EOF⟩] = .err m := by
  have hbody : programBodyF 20
      [⟨"GOTO", .GOTO⟩, ⟨"y", .IDENT⟩, ⟨"\n", .NEWLINE⟩, ⟨"\x00", .EOF⟩] =
      .ok ⟨[⟨"\x00", .EOF⟩], [], [], ["y"],
        "#include <stdio.h>\nint main(void)\x7b\n", "goto y;\nreturn 0;\n\x7d\n"⟩ := by
    decide
  exact ((c2_label_check.1 _ id _ _ (fun xs x => Iff.rfl) hbody).1).mpr
    ⟨"y", by decide, by decide⟩

/-- C3: an identifier in expression position whose text is not in the symbol
table makes `primary` abort immediately with the reference-before-assignment
diagnostic, whatever the rest of the stream holds; membership is purely
lexical-order-based, so the same failure occurs inside a never-executed IF
body. -/
theorem c3_undeclared_reference :
    (∀ st : PState, st.cur.kind = .IDENT → st.cur.text ∉ st.symbols →
      primaryF st = .err ("Error Refrencing variable before assignment: " ++ st.cur.text)) ∧
    compile "PRINT a" = .err "Error Refrencing variable before assignment: a" ∧
    compile "LET x = 0\nIF x > 1 THEN\nPRINT a\nENDIF" =
      .err "Error Refrencing variable before assignment: a" := by
  refine ⟨fun st hk hmem => ?_, by decide, by decide⟩
  unfold primaryF
  rw [if_neg (by rw [hk]; decide), if_pos hk, if_pos hmem]

/-- C3, witnessed at a concrete one-token state. -/
theorem c3_undeclared_reference_witness :
    primaryF ⟨[⟨"a", .IDENT⟩], [], [], [], "", ""⟩ =
      .err ("Error Refrencing variable before assignment: " ++ "a") :=
  c3_undeclared_reference.1 ⟨[⟨"a", .IDENT⟩], [], [], [], "", ""⟩ rfl (by decide)

/-- C9: compilation is deterministic.  The embedding is a pure function of the
input text except for the iteration order of the Python set `labels_gotoed` in
the final check, modelled by the enumeration `ord`; for any two valid
enumerations, a successful compilation produces byte-identical header and body
under either. -/
theorem c9_deterministic_output :
    ∀ (ord1 ord2 : List String → List String) (f : Nat) (input : String)
      (r : String × String),
      (∀ (xs : List String) (x : String), x ∈ ord1 xs ↔ x ∈ xs) →
      (∀ (xs : List String) (x : String), x ∈ ord2 xs ↔ x ∈ xs) →
      compileF ord1 f input = .ok r → compileF ord2 f input = .ok r := by
  intro ord1 ord2 f input r h1 h2 hc
  unfold compileF at hc ⊢
  cases hlex : lexProgram input with
  | ok ts =>
    rw [hlex] at hc
    have hc' : (programF f ord1 ts).bind
        (fun st => (.ok (st.header, st.code) : Outcome (String × String))) = .ok r := hc
    show (programF f ord2 ts).bind (fun st => .ok (st.header, st.code)) = .ok r
    unfold programF at hc' ⊢
    cases hbody : programBodyF f ts with
    | ok st =>
      rw [hbody] at hc'
      have hc2 : ((labelCheck (ord1 st.labels_gotoed) st.labels_declared).bind
          (fun _ => (.ok st : Outcome PState))).bind
          (fun st => (.ok (st.header, st.code) : Outcome (String × String))) = .ok r := hc'
      show ((labelCheck (ord2 st.labels_gotoed) st.labels_declared).bind
        (fun _ => (.ok st : Outcome PState))).bind (fun st => .ok (st.header, st.code)) = .ok r
      rcases labelCheck_total (ord1 st.labels_gotoed) st.labels_declared with hok | ⟨m, herr⟩
      · have hall : ∀ l ∈ st.labels_gotoed, l ∈ st.labels_declared := by
          intro l hl
          exact (labelCheck_ok_iff _ _).mp hok l ((h1 _ l).mpr hl)
        have hok2 : labelCheck (ord2 st.labels_gotoed) st.labels_declared = .ok () := by
          rw [labelCheck_ok_iff]
          intro x hx
          exact hall x ((h2 _ x).mp hx)
        rw [hok2]
        rw [hok] at hc2
        exact hc2
      · rw [herr] at hc2
        have hx : (Outcome.err m : Outcome (String × String)) = .ok r := hc2
        cases hx
    | err m =>
      rw [hbody] at hc'
      have hx : (Outcome.err m : Outcome (String × String)) = .ok r := hc'
      cases hx
    | hang =>
      rw [hbody] at hc'
      have hx : (Outcome.hang : Outcome (String × String)) = .ok r := hc'
      cases hx
    | fuelOut =>
      rw [hbody] at hc'
      have hx : (Outcome.fuelOut : Outcome (String × String)) = .ok r := hc'
      cases hx
  | err m =>
    rw [hlex] at hc
    have hx : (Outcome.err m : Outcome (String × String)) = .ok r := hc
    cases hx
  | hang =>
    rw [hlex] at hc
    have hx : (Outcome.hang : Outcome (String × String)) = .ok r := hc
    cases hx
  | fuelOut =>
    rw [hlex] at hc
    have hx : (Outcome.fuelOut : Outcome (String × String)) = .ok r := hc
    cases hx

/-- C9, witnessed with the identity and the reversing enumerations. -/
theorem c9_deterministic_output_witness :
    compileF List.reverse 22 "PRINT 1" =
      .ok ("#include <stdio.h>\nint main(void)\x7b\n",
           "printf(\"%.2f\\n\", (float)(1));\nreturn 0;\n\x7d\n") :=
  c9_deterministic_output id List.reverse 22 "PRINT 1" _ (fun xs x => Iff.rfl)
    (fun xs x => List.mem_reverse) (by decide)

/-- C7: in a LET statement the target identifier is inserted into the symbol
table (with its header declaration emitted) before the right-hand side is
parsed: on a stream `LET x = …` with `x` not yet declared, `statement`
reduces to parsing the expression in a state whose symbol table already holds
`x`; hence `LET a = a` compiles. -/
theorem c7_let_self_reference :
    (∀ (f : Nat) (st : PState) (lt x eq2 : Token) (rest : List Token),
      st.toks = lt :: x :: eq2 :: rest → lt.kind = .LET → x.kind = .IDENT → eq2.kind = .EQ →
      x.text ∉ st.symbols →
      (statementF (Nat.succ f) st =
        ((expressionF f
            { toks := rest, symbols := st.symbols ++ [x.text],
              labels_declared := st.labels_declared, labels_gotoed := st.labels_gotoed,
              header := st.header ++ ("float " ++ x.text ++ ";") ++ "\n",
              code := st.code ++ (x.text ++ " = ") }).bind
          (fun st5 => Outcome.ok (st5.emit_line ";"))).bind (nlF f) ∧
        x.text ∈ st.symbols ++ [x.text])) ∧
    compile "LET a = a" =
      .ok ("#include <stdio.h>\nint main(void)\x7b\nfloat a;\n",
           "a = a;\nreturn 0;\n\x7d\n") := by
  refine ⟨?_, by decide⟩
  intro f st lt x eq2 rest htoks hlt hx heq hmem
  refine ⟨?_, by simp⟩
  have hcur : st.cur = lt := by simp [PState.cur, htoks]
  have n1 : ¬ (st.cur.kind = TokenType.PRINT) := by rw [hcur, hlt]; decide
  have n2 : ¬ (st.cur.kind = TokenType.IF) := by rw [hcur, hlt]; decide
  have n3 : ¬ (st.cur.kind = TokenType.WHILE) := by rw [hcur, hlt]; decide
  have n4 : ¬ (st.cur.kind = TokenType.LABEL) := by rw [hcur, hlt]; decide
  have n5 : ¬ (st.cur.kind = TokenType.GOTO) := by rw [hcur, hlt]; decide
  have n6 : st.cur.kind = TokenType.LET := by rw [hcur]; exact hlt
  simp only [statementF]
  rw [if_neg n1, if_neg n2, if_neg n3, if_neg n4, if_neg n5, if_pos n6]
  have hadv : st.advance = { st with toks := x :: eq2 :: rest } := by
    simp [PState.advance, htoks]
  rw [hadv]
  simp only [PState.cur, PState.emit, PState.emit_line, PState.header_line, matchTok,
    PState.advance, hmem, hx, heq, List.drop_succ_cons, List.drop_zero]
  simp [Outcome.bind, hx, heq]

/-- C7, witnessed on the token stream of `LET a = a` truncated after `=`. -/
theorem c7_let_self_reference_witness :
    statementF 1 ⟨[⟨"LET", .LET⟩, ⟨"a", .IDENT⟩, ⟨"=", .EQ⟩], [], [], [], "", ""⟩ =
      ((expressionF 0
          { toks := [], symbols := [] ++ ["a"], labels_declared := [], labels_gotoed := [],
            header := "" ++ ("float " ++ "a" ++ ";") ++ "\n",
            code := "" ++ ("a" ++ " = ") }).bind
        (fun st5 => Outcome.ok (st5.emit_line ";"))).bind (nlF 0) ∧
    "a" ∈ ([] : List String) ++ ["a"] :=
  c7_let_self_reference.1 0 ⟨[⟨"LET", .LET⟩, ⟨"a", .IDENT⟩, ⟨"=", .EQ⟩], [], [], [], "", ""⟩
    ⟨"LET", .LET⟩ ⟨"a", .IDENT⟩ ⟨"=", .EQ⟩ [] rfl rfl rfl rfl (by decide)

/-! ### Step algebra for the parser invariants -/

theorem take_add_split {α : Type} : ∀ (m : Nat) (l : List α) (n : Nat),
    l.take (m + n) = l.take m ++ (l.drop m).take n := by
  intro m
  induction m with
  | zero => intro l n; simp
  | succ k ih =>
    intro l n
    cases l with
    | nil => simp
    | cons x xs =>
      have hadd : k + 1 + n = (k + n) + 1 := by omega
      rw [hadd]
      simp only [List.take_succ_cons, List.drop_succ_cons, List.cons_append]
      rw [ih]

theorem specLetInputTargets_noLI {l : List Token}
    (h : ∀ t ∈ l, ¬ (t.kind = TokenType.LET ∨ t.kind = TokenType.INPUT)) :
    specLetInputTargets l = [] := by
  induction l with
  | nil => rfl
  | cons a tail ih =>
    cases tail with
    | nil => rfl
    | cons b r =>
      have ha := h a (by simp)
      have ih' := ih (fun t ht => h t (by simp [ht]))
      simp [specLetInputTargets, ha, ih']

theorem noLITail_of_noLI {l : List Token}
    (h : ∀ t ∈ l, ¬ (t.kind = TokenType.LET ∨ t.kind = TokenType.INPUT)) : noLITail l :=
  fun t ht => h t (List.mem_of_getLast?_eq_some ht)

theorem LastNL.toNoLITail_last {l : List Token} (h : LastNL l) : noLITail l := by
  obtain ⟨pre, t, rfl, hk⟩ := h
  intro u hu
  rw [List.getLast?_concat] at hu
  cases hu
  rw [hk]
  decide

theorem specLetInputTargets_append {A B : List Token} (h : noLITail A) :
    specLetInputTargets (A ++ B) = specLetInputTargets A ++ specLetInputTargets B := by
  induction A with
  | nil => simp [specLetInputTargets]
  | cons a A ih =>
    cases A with
    | nil =>
      cases B with
      | nil => simp [specLetInputTargets]
      | cons b B2 =>
        have ha : ¬ (a.kind = TokenType.LET ∨ a.kind = TokenType.INPUT) := h a (by simp)
        simp [specLetInputTargets, ha]
    | cons a2 A2 =>
      have h2 : noLITail (a2 :: A2) := by
        intro t ht
        exact h t (by rw [List.getLast?_cons_cons]; exact ht)
      have ihh := ih h2
      simp only [List.cons_append] at ihh ⊢
      simp [specLetInputTargets, ihh, List.append_assoc]

theorem declsOf_append (a b : List String) : declsOf (a ++ b) = declsOf a ++ declsOf b := by
  induction a with
  | nil => simp [declsOf]
  | cons x r ih => simp [declsOf, ih, String.append_assoc]

theorem StepOk.comp_step {n₀ n₁ : Nat} {f₀ f₁ : List String} {st₀ st₁ st₂ : PState}
    (h₀ : StepOk n₀ f₀ st₀ st₁) (h₁ : StepOk n₁ f₁ st₁ st₂)
    (hA : noLITail (st₀.toks.take n₀)) :
    StepOk (n₀ + n₁) (f₀ ++ f₁) st₀ st₂ := by
  obtain ⟨t0, s0, ni0, nd0, hd0, fi0, ti0⟩ := h₀
  obtain ⟨t1, s1, ni1, nd1, hd1, fi1, ti1⟩ := h₁
  have htargets : specLetInputTargets (st₀.toks.take (n₀ + n₁)) =
      specLetInputTargets (st₀.toks.take n₀) ++ specLetInputTargets (st₁.toks.take n₁) := by
    rw [take_add_split n₀ st₀.toks n₁, specLetInputTargets_append hA, t0]
  refine ⟨?_, ?_, ?_, ?_, ?_, ?_, ?_⟩
  · rw [t1, t0, List.drop_drop]
  · rw [s1, s0, List.append_assoc]
  · intro y hy
    rcases List.mem_append.mp hy with hy0 | hy1
    · exact ni0 y hy0
    · intro hc
      exact (ni1 y hy1) (by rw [s0]; exact List.mem_append_left _ hc)
  · rw [List.nodup_append]
    refine ⟨nd0, nd1, ?_⟩
    intro y hy0 hy1
    exact (ni1 y hy1) (by rw [s0]; exact List.mem_append_right _ hy0)
  · rw [hd1, hd0, declsOf_append, String.append_assoc]
  · intro y hy
    rw [htargets]
    rcases List.mem_append.mp hy with hy0 | hy1
    · exact List.mem_append_left _ (fi0 y hy0)
    · exact List.mem_append_right _ (fi1 y hy1)
  · intro y hy
    rw [htargets] at hy
    rcases List.mem_append.mp hy with hy0 | hy1
    · rcases ti0 y hy0 with hz | hz
      · exact Or.inl hz
      · exact Or.inr (List.mem_append_left _ hz)
    · rcases ti1 y hy1 with hz | hz
      · rw [s0] at hz
        rcases List.mem_append.mp hz with hz' | hz'
        · exact Or.inl hz'
        · exact Or.inr (List.mem_append_left _ hz')
      · exact Or.inr (List.mem_append_right _ hz)

theorem ExprStep.refl_expr (st : PState) : ExprStep 0 st st :=
  ⟨by simp, rfl, rfl, by simp⟩

theorem ExprStep.comp_expr {n₀ n₁ : Nat} {st₀ st₁ st₂ : PState}
    (h₀ : ExprStep n₀ st₀ st₁) (h₁ : ExprStep n₁ st₁ st₂) : ExprStep (n₀ + n₁) st₀ st₂ := by
  obtain ⟨t0, s0, hh0, no0⟩ := h₀
  obtain ⟨t1, s1, hh1, no1⟩ := h₁
  refine ⟨by rw [t1, t0, List.drop_drop], s1.trans s0, hh1.trans hh0, ?_⟩
  intro t ht
  rw [take_add_split n₀ st₀.toks n₁] at ht
  rcases List.mem_append.mp ht with hm | hm
  · exact no0 t hm
  · refine no1 t ?_
    rw [t0]
    exact hm

theorem ExprStep.toStepOk {n : Nat} {st st' : PState} (h : ExprStep n st st') :
    StepOk n [] st st' := by
  obtain ⟨ht, hs, hh, hno⟩ := h
  have htar := specLetInputTargets_noLI hno
  refine ⟨ht, by simp [hs], by simp, List.nodup_nil, by simp [declsOf, hh], by simp, ?_⟩
  rw [htar]
  simp

theorem ExprStep.toNoLITail_expr {n : Nat} {st st' : PState} (h : ExprStep n st st') :
    noLITail (st.toks.take n) :=
  noLITail_of_noLI h.2.2.2

theorem PState.cur_kind_of_nil {st : PState} (h : st.toks = []) :
    st.cur.kind = TokenType.EOF := by
  simp [PState.cur, h]

theorem toks_ne_nil_of_kind {st : PState} (h : st.cur.kind ≠ TokenType.EOF) :
    st.toks ≠ [] := by
  intro hl
  exact h (PState.cur_kind_of_nil hl)

theorem PState.cur_head {st : PState} {a : Token} {r : List Token} (h : st.toks = a :: r) :
    st.cur = a := by
  simp [PState.cur, h]

theorem ExprStep.advance_emit (st : PState) (txt : String)
    (hk : ¬ (st.cur.kind = TokenType.LET ∨ st.cur.kind = TokenType.INPUT)) :
    ExprStep 1 st ((st.emit txt).advance) := by
  refine ⟨rfl, rfl, rfl, ?_⟩
  intro t ht
  cases hl : st.toks with
  | nil => rw [hl] at ht; simp at ht
  | cons a r =>
    rw [hl] at ht
    simp at ht
    rw [ht, ← PState.cur_head hl]
    exact hk

theorem ExprStep.advance_expr (st : PState)
    (hk : ¬ (st.cur.kind = TokenType.LET ∨ st.cur.kind = TokenType.INPUT)) :
    ExprStep 1 st st.advance := by
  refine ⟨rfl, rfl, rfl, ?_⟩
  intro t ht
  cases hl : st.toks with
  | nil => rw [hl] at ht; simp at ht
  | cons a r =>
    rw [hl] at ht
    simp at ht
    rw [ht, ← PState.cur_head hl]
    exact hk

theorem NlStep.refl_nl (st : PState) : NlStep 0 st st :=
  ⟨by simp, rfl, rfl, by simp⟩

theorem NlStep.comp_nl {n₀ n₁ : Nat} {st₀ st₁ st₂ : PState}
    (h₀ : NlStep n₀ st₀ st₁) (h₁ : NlStep n₁ st₁ st₂) : NlStep (n₀ + n₁) st₀ st₂ := by
  obtain ⟨t0, s0, hh0, no0⟩ := h₀
  obtain ⟨t1, s1, hh1, no1⟩ := h₁
  refine ⟨by rw [t1, t0, List.drop_drop], s1.trans s0, hh1.trans hh0, ?_⟩
  intro t ht
  rw [take_add_split n₀ st₀.toks n₁] at ht
  rcases List.mem_append.mp ht with hm | hm
  · exact no0 t hm
  · refine no1 t ?_
    rw [t0]
    exact hm

theorem NlStep.advance_nl (st : PState) (hk : st.cur.kind = TokenType.NEWLINE) :
    NlStep 1 st st.advance := by
  refine ⟨rfl, rfl, rfl, ?_⟩
  intro t ht
  cases hl : st.toks with
  | nil => rw [hl] at ht; simp at ht
  | cons a r =>
    rw [hl] at ht
    simp at ht
    rw [ht, ← PState.cur_head hl]
    exact hk

theorem NlStep.toExprStep {n : Nat} {st st' : PState} (h : NlStep n st st') :
    ExprStep n st st' :=
  ⟨h.1, h.2.1, h.2.2.1, fun t ht => by rw [h.2.2.2 t ht]; decide⟩

theorem NlStep.toLastNL {n : Nat} {st st' : PState} (h : NlStep n st st')
    (hn : 1 ≤ n) (hne : st.toks ≠ []) : LastNL (st.toks.take n) := by
  have htne : st.toks.take n ≠ [] := by
    simp only [ne_eq, List.take_eq_nil_iff]
    push_neg
    exact ⟨by omega, hne⟩
  refine ⟨(st.toks.take n).dropLast, (st.toks.take n).getLast htne, ?_, ?_⟩
  · rw [List.dropLast_append_getLast htne]
  · exact h.2.2.2 _ (List.getLast_mem htne)

/-! ### Consumption lemmas for the grammar rules -/

theorem matchTok_ok {k : TokenType} {st st' : PState} (h : matchTok k st = .ok st') :
    st' = st.advance ∧ st.cur.kind = k := by
  unfold matchTok at h
  by_cases hc : k = st.cur.kind
  · rw [if_pos hc] at h
    cases h
    exact ⟨rfl, hc.symm⟩
  · rw [if_neg hc] at h
    cases h

theorem primaryF_ok {st st' : PState} (h : primaryF st = .ok st') :
    ExprStep 1 st st' ∧ st.toks ≠ [] := by
  unfold primaryF at h
  by_cases h1 : st.cur.kind = TokenType.NUMBER
  · rw [if_pos h1] at h
    cases h
    exact ⟨ExprStep.advance_emit st _ (by rw [h1]; decide),
      toks_ne_nil_of_kind (by rw [h1]; decide)⟩
  · rw [if_neg h1] at h
    by_cases h2 : st.cur.kind = TokenType.IDENT
    · rw [if_pos h2] at h
      by_cases h3 : st.cur.text ∉ st.symbols
      · rw [if_pos h3] at h
        cases h
      · rw [if_neg h3] at h
        cases h
        exact ⟨ExprStep.advance_emit st _ (by rw [h2]; decide),
          toks_ne_nil_of_kind (by rw [h2]; decide)⟩
    · rw [if_neg h2] at h
      cases h

theorem unaryF_ok {st st' : PState} (h : unaryF st = .ok st') :
    ∃ n, 1 ≤ n ∧ ExprStep n st st' ∧ st.toks ≠ [] := by
  unfold unaryF at h
  by_cases h1 : st.cur.kind = TokenType.PLUS ∨ st.cur.kind = TokenType.MINUS
  · rw [if_pos h1] at h
    obtain ⟨he, hne⟩ := primaryF_ok h
    refine ⟨1 + 1, by omega, ?_, ?_⟩
    · exact (ExprStep.advance_emit st _ (by rcases h1 with h1 | h1 <;> rw [h1] <;> decide)).comp_expr he
    · exact toks_ne_nil_of_kind (by rcases h1 with h1 | h1 <;> rw [h1] <;> decide)
  · rw [if_neg h1] at h
    obtain ⟨he, hne⟩ := primaryF_ok h
    exact ⟨1, le_refl _, he, hne⟩

theorem termLoopF_ok : ∀ {f : Nat} {st st' : PState}, termLoopF f st = .ok st' →
    ∃ n, ExprStep n st st' := by
  intro f
  induction f with
  | zero => intro st st' h; cases h
  | succ g ih =>
    intro st st' h
    simp only [termLoopF] at h
    by_cases hc : st.cur.kind = TokenType.ASTERISK ∨ st.cur.kind = TokenType.SLASH
    · rw [if_pos hc] at h
      cases hu : unaryF ((st.emit st.cur.text).advance) with
      | ok u =>
        rw [hu] at h
        obtain ⟨n1, hn1, he1, hne1⟩ := unaryF_ok hu
        obtain ⟨n2, he2⟩ := ih h
        refine ⟨1 + n1 + n2, ?_⟩
        exact ((ExprStep.advance_emit st _
          (by rcases hc with hc | hc <;> rw [hc] <;> decide)).comp_expr he1).comp_expr he2
      | err m => rw [hu] at h; cases h
      | hang => rw [hu] at h; cases h
      | fuelOut => rw [hu] at h; cases h
    · rw [if_neg hc] at h
      cases h
      exact ⟨0, ExprStep.refl_expr st⟩

theorem termF_ok {f : Nat} {st st' : PState} (h : termF f st = .ok st') :
    ∃ n, 1 ≤ n ∧ ExprStep n st st' ∧ st.toks ≠ [] := by
  unfold termF at h
  cases hu : unaryF st with
  | ok u =>
    rw [hu] at h
    obtain ⟨n1, hn1, he1, hne1⟩ := unaryF_ok hu
    obtain ⟨n2, he2⟩ := termLoopF_ok h
    exact ⟨n1 + n2, by omega, he1.comp_expr he2, hne1⟩
  | err m => rw [hu] at h; cases h
  | hang => rw [hu] at h; cases h
  | fuelOut => rw [hu] at h; cases h

theorem exprLoopF_ok : ∀ {f : Nat} {st st' : PState}, exprLoopF f st = .ok st' →
    ∃ n, ExprStep n st st' := by
  intro f
  induction f with
  | zero => intro st st' h; cases h
  | succ g ih =>
    intro st st' h
    simp only [exprLoopF] at h
    by_cases hc : st.cur.kind = TokenType.PLUS ∨ st.cur.kind = TokenType.MINUS
    · rw [if_pos hc] at h
      cases hu : termF g ((st.emit st.cur.text).advance) with
      | ok u =>
        rw [hu] at h
        obtain ⟨n1, hn1, he1, hne1⟩ := termF_ok hu
        obtain ⟨n2, he2⟩ := ih h
        refine ⟨1 + n1 + n2, ?_⟩
        exact ((ExprStep.advance_emit st _
          (by rcases hc with hc | hc <;> rw [hc] <;> decide)).comp_expr he1).comp_expr he2
      | err m => rw [hu] at h; cases h
      | hang => rw [hu] at h; cases h
      | fuelOut => rw [hu] at h; cases h
    · rw [if_neg hc] at h
      cases h
      exact ⟨0, ExprStep.refl_expr st⟩

theorem expressionF_ok {f : Nat} {st st' : PState} (h : expressionF f st = .ok st') :
    ∃ n, 1 ≤ n ∧ ExprStep n st st' ∧ st.toks ≠ [] := by
  unfold expressionF at h
  cases hu : termF f st with
  | ok u =>
    rw [hu] at h
    obtain ⟨n1, hn1, he1, hne1⟩ := termF_ok hu
    obtain ⟨n2, he2⟩ := exprLoopF_ok h
    exact ⟨n1 + n2, by omega, he1.comp_expr he2, hne1⟩
  | err m => rw [hu] at h; cases h
  | hang => rw [hu] at h; cases h
  | fuelOut => rw [hu] at h; cases h

theorem comparison_kind_not_li {k : TokenType} (h : isComparisonOp k) :
    ¬ (k = TokenType.LET ∨ k = TokenType.INPUT) := by
  rcases h with h | h | h | h | h | h <;> rw [h] <;> decide

theorem comparisonLoopF_ok : ∀ {f : Nat} {st st' : PState}, comparisonLoopF f st = .ok st' →
    ∃ n, ExprStep n st st' := by
  intro f
  induction f with
  | zero => intro st st' h; cases h
  | succ g ih =>
    intro st st' h
    simp only [comparisonLoopF] at h
    by_cases hc : isComparisonOp st.cur.kind
    · rw [if_pos hc] at h
      cases hu : expressionF g ((st.emit st.cur.text).advance) with
      | ok u =>
        rw [hu] at h
        obtain ⟨n1, hn1, he1, hne1⟩ := expressionF_ok hu
        obtain ⟨n2, he2⟩ := ih h
        refine ⟨1 + n1 + n2, ?_⟩
        exact ((ExprStep.advance_emit st _ (comparison_kind_not_li hc)).comp_expr he1).comp_expr he2
      | err m => rw [hu] at h; cases h
      | hang => rw [hu] at h; cases h
      | fuelOut => rw [hu] at h; cases h
    · rw [if_neg hc] at h
      cases h
      exact ⟨0, ExprStep.refl_expr st⟩

theorem comparisonF_ok {f : Nat} {st st' : PState} (h : comparisonF f st = .ok st') :
    ∃ n, 1 ≤ n ∧ ExprStep n st st' ∧ st.toks ≠ [] := by
  unfold comparisonF at h
  cases hu : expressionF f st with
  | ok u =>
    rw [hu] at h
    simp only [Outcome.bind] at h
    obtain ⟨n1, hn1, he1, hne1⟩ := expressionF_ok hu
    by_cases hc : isComparisonOp u.cur.kind
    · rw [if_pos hc] at h
      cases hu2 : expressionF f ((u.emit u.cur.text).advance) with
      | ok v =>
        rw [hu2] at h
        obtain ⟨n2, hn2, he2, hne2⟩ := expressionF_ok hu2
        obtain ⟨n3, he3⟩ := comparisonLoopF_ok h
        refine ⟨n1 + (1 + n2 + n3), by omega, ?_, hne1⟩
        exact he1.comp_expr (((ExprStep.advance_emit u _ (comparison_kind_not_li hc)).comp_expr he2).comp_expr he3)
      | err m => rw [hu2] at h; cases h
      | hang => rw [hu2] at h; cases h
      | fuelOut => rw [hu2] at h; cases h
    · rw [if_neg hc] at h
      cases h
  | err m => rw [hu] at h; cases h
  | hang => rw [hu] at h; cases h
  | fuelOut => rw [hu] at h; cases h

theorem nlLoopF_ok : ∀ {f : Nat} {st st' : PState}, nlLoopF f st = .ok st' →
    ∃ n, NlStep n st st' := by
  intro f
  induction f with
  | zero => intro st st' h; cases h
  | succ g ih =>
    intro st st' h
    simp only [nlLoopF] at h
    by_cases hc : st.cur.kind = TokenType.NEWLINE
    · rw [if_pos hc] at h
      obtain ⟨n, hn⟩ := ih h
      exact ⟨1 + n, (NlStep.advance_nl st hc).comp_nl hn⟩
    · rw [if_neg hc] at h
      cases h
      exact ⟨0, NlStep.refl_nl st⟩

theorem nlF_ok {f : Nat} {st st' : PState} (h : nlF f st = .ok st') :
    ∃ n, 1 ≤ n ∧ NlStep n st st' ∧ st.toks ≠ [] := by
  unfold nlF at h
  cases hm : matchTok TokenType.NEWLINE st with
  | ok u =>
    rw [hm] at h
    obtain ⟨hu, hk⟩ := matchTok_ok hm
    subst hu
    obtain ⟨n, hn⟩ := nlLoopF_ok h
    exact ⟨1 + n, by omega, (NlStep.advance_nl st hk).comp_nl hn,
      toks_ne_nil_of_kind (by rw [hk]; decide)⟩
  | err m => rw [hm] at h; cases h
  | hang => rw [hm] at h; cases h
  | fuelOut => rw [hm] at h; cases h

theorem bind_ok {α β : Type} {a : Outcome α} {k : α → Outcome β} {b : β}
    (h : a.bind k = .ok b) : ∃ x, a = .ok x ∧ k x = .ok b := by
  cases a with
  | ok x => exact ⟨x, rfl, h⟩
  | err m => cases h
  | hang => cases h
  | fuelOut => cases h

theorem ExprStep.one {st u : PState} (hu : u.toks = st.toks.drop 1)
    (hsym : u.symbols = st.symbols) (hh : u.header = st.header)
    (hk : ¬ (st.cur.kind = TokenType.LET ∨ st.cur.kind = TokenType.INPUT)) :
    ExprStep 1 st u := by
  refine ⟨hu, hsym, hh, ?_⟩
  intro t ht
  cases hl : st.toks with
  | nil => rw [hl] at ht; simp at ht
  | cons a r =>
    rw [hl] at ht
    simp at ht
    rw [ht, ← PState.cur_head hl]
    exact hk

theorem ExprStep.zero {st u : PState} (hu : u.toks = st.toks)
    (hsym : u.symbols = st.symbols) (hh : u.header = st.header) : ExprStep 0 st u :=
  ⟨by simp [hu], hsym, hh, by simp⟩

theorem LastNL.append_left {B : List Token} (h : LastNL B) (A : List Token) :
    LastNL (A ++ B) := by
  obtain ⟨pre, t, rfl, hk⟩ := h
  exact ⟨A ++ pre, t, by rw [List.append_assoc], hk⟩

/-- Finish a statement branch: the branch chunk followed by the trailing `nl`. -/
theorem stmt_finish {st stmid st' : PState} {m n3 : Nat} {fresh : List String}
    (hb : StepOk m fresh st stmid) (hlastb : noLITail (st.toks.take m))
    (hnl : NlStep n3 stmid st') (hn3 : 1 ≤ n3) (hmidne : stmid.toks ≠ []) :
    StepOk (m + n3) fresh st st' ∧ LastNL (st.toks.take (m + n3)) := by
  constructor
  · have hc := hb.comp_step hnl.toExprStep.toStepOk hlastb
    simpa using hc
  · rw [take_add_split m st.toks n3, ← hb.1]
    exact (hnl.toLastNL hn3 hmidne).append_left _

/-- The head of a LET or INPUT statement whose target is new: the keyword and
the target are consumed, the target becomes the one fresh symbol, and its
declaration line goes to the header. -/
theorem StepOk.li_head_new {st u : PState} {t0 x0 : Token} {r : List Token}
    (htoks : st.toks = t0 :: x0 :: r)
    (hli : t0.kind = TokenType.LET ∨ t0.kind = TokenType.INPUT)
    (hnotli : ¬ (x0.kind = TokenType.LET ∨ x0.kind = TokenType.INPUT))
    (hut : u.toks = st.toks.drop 2)
    (hus : u.symbols = st.symbols ++ [x0.text])
    (hmem : x0.text ∉ st.symbols)
    (huh : u.header = st.header ++ ("float " ++ x0.text ++ ";") ++ "\n") :
    StepOk 2 [x0.text] st u ∧ noLITail (st.toks.take 2) := by
  have htake : st.toks.take 2 = [t0, x0] := by rw [htoks]; rfl
  have htar : specLetInputTargets (st.toks.take 2) = [x0.text] := by
    rw [htake]
    show (if t0.kind = TokenType.LET ∨ t0.kind = TokenType.INPUT then [x0.text] else []) ++
      specLetInputTargets [x0] = [x0.text]
    rw [if_pos hli]
    rfl
  refine ⟨⟨hut, hus, ?_, by simp, ?_, ?_, ?_⟩, ?_⟩
  · intro y hy
    simp at hy
    rw [hy]
    exact hmem
  · rw [huh]
    simp [declsOf, String.append_assoc]
  · intro y hy
    simp at hy
    rw [hy, htar]
    simp
  · intro y hy
    rw [htar] at hy
    simp at hy
    rw [hy]
    right
    simp
  · intro t ht
    rw [htake] at ht
    have : t = x0 := by
      rw [show ([t0, x0] : List Token).getLast? = some x0 from rfl] at ht
      cases ht
      rfl
    rw [this]
    exact hnotli

/-- The head of a LET or INPUT statement whose target is already declared:
nothing fresh, nothing added to the header. -/
theorem StepOk.li_head_old {st u : PState} {t0 x0 : Token} {r : List Token}
    (htoks : st.toks = t0 :: x0 :: r)
    (hli : t0.kind = TokenType.LET ∨ t0.kind = TokenType.INPUT)
    (hnotli : ¬ (x0.kind = TokenType.LET ∨ x0.kind = TokenType.INPUT))
    (hut : u.toks = st.toks.drop 2)
    (hus : u.symbols = st.symbols)
    (hmem : x0.text ∈ st.symbols)
    (huh : u.header = st.header) :
    StepOk 2 [] st u ∧ noLITail (st.toks.take 2) := by
  have htake : st.toks.take 2 = [t0, x0] := by rw [htoks]; rfl
  have htar : specLetInputTargets (st.toks.take 2) = [x0.text] := by
    rw [htake]
    show (if t0.kind = TokenType.LET ∨ t0.kind = TokenType.INPUT then [x0.text] else []) ++
      specLetInputTargets [x0] = [x0.text]
    rw [if_pos hli]
    rfl
  refine ⟨⟨hut, by simp [hus], by simp, by simp, by simp [declsOf, huh], by simp, ?_⟩, ?_⟩
  · intro y hy
    rw [htar] at hy
    simp at hy
    rw [hy]
    left
    exact hmem
  · intro t ht
    rw [htake] at ht
    have : t = x0 := by
      rw [show ([t0, x0] : List Token).getLast? = some x0 from rfl] at ht
      cases ht
      rfl
    rw [this]
    exact hnotli

theorem noLITail_nil : noLITail ([] : List Token) := by
  intro t ht
  cases ht

theorem noLITail_append {A B : List Token} (hA : noLITail A) (hB : noLITail B) :
    noLITail (A ++ B) := by
  intro t ht
  rw [List.getLast?_append] at ht
  cases hB' : B.getLast? with
  | none =>
    rw [hB'] at ht
    exact hA t ht
  | some b =>
    rw [hB'] at ht
    have hbt : Option.some b = some t := ht
    cases hbt
    exact hB t hB'

theorem Chunk.comp_chunk {n₀ n₁ : Nat} {f₀ f₁ : List String} {st₀ st₁ st₂ : PState}
    (h₀ : Chunk n₀ f₀ st₀ st₁) (h₁ : Chunk n₁ f₁ st₁ st₂) :
    Chunk (n₀ + n₁) (f₀ ++ f₁) st₀ st₂ := by
  refine ⟨h₀.1.comp_step h₁.1 h₀.2, ?_⟩
  rw [take_add_split n₀ st₀.toks n₁, ← h₀.1.1]
  exact noLITail_append h₀.2 h₁.2

theorem Chunk.ofExpr {n : Nat} {st st' : PState} (h : ExprStep n st st') : Chunk n [] st st' :=
  ⟨h.toStepOk, h.toNoLITail_expr⟩

theorem Chunk.ofNl {n : Nat} {st st' : PState} (h : NlStep n st st') : Chunk n [] st st' :=
  Chunk.ofExpr h.toExprStep

theorem Chunk.ofMatch {k : TokenType} {st st' : PState} (h : matchTok k st = .ok st')
    (hk : ¬ (k = TokenType.LET ∨ k = TokenType.INPUT)) : Chunk 1 [] st st' := by
  obtain ⟨h1, h2⟩ := matchTok_ok h
  rw [h1]
  refine Chunk.ofExpr (ExprStep.advance_expr st ?_)
  rw [h2]
  exact hk

theorem Chunk.one_into {st u : PState} (hu : u.toks = st.toks.drop 1)
    (hsym : u.symbols = st.symbols) (hh : u.header = st.header)
    (hk : ¬ (st.cur.kind = TokenType.LET ∨ st.cur.kind = TokenType.INPUT)) : Chunk 1 [] st u :=
  Chunk.ofExpr (ExprStep.one hu hsym hh hk)

/-- The first two tokens of a LET or INPUT statement: the stream holds the
keyword, the target, and a rest. -/
theorem li_two_tokens {st : PState} (hne : st.toks ≠ [])
    (hadvne : st.advance.toks ≠ []) : ∃ t0 x0 r1, st.toks = t0 :: x0 :: r1 := by
  cases hl : st.toks with
  | nil => exact absurd hl hne
  | cons t0 r0 =>
    rcases r0 with _ | ⟨x0, r1⟩
    · exfalso
      apply hadvne
      show st.toks.drop 1 = []
      rw [hl]
      rfl
    · exact ⟨t0, x0, r1, rfl⟩

/-- Joint consumption-and-symbols invariant of `Parser.statement` and the
statement loops: a successful `statement` consumes a nonempty chunk ending in
a newline token, a successful statement loop consumes a concatenation of such
chunks and stops with the end token current; in both cases the symbol table
grows by exactly the fresh LET/INPUT targets of the consumed chunk, each
declared exactly once in the header. -/
theorem statement_stmtList_ok : ∀ f : Nat,
    (∀ {st st' : PState}, statementF f st = .ok st' →
      ∃ n fresh, 1 ≤ n ∧ st.toks ≠ [] ∧ StepOk n fresh st st' ∧ LastNL (st.toks.take n)) ∧
    (∀ {endK : TokenType} {st st' : PState}, stmtListF f endK st = .ok st' →
      ∃ n fresh, StepOk n fresh st st' ∧ (n = 0 ∨ LastNL (st.toks.take n)) ∧
        st'.cur.kind = endK) := by
  intro f
  induction f with
  | zero =>
    constructor
    · intro st st' h; cases h
    · intro endK st st' h; cases h
  | succ g ih =>
    obtain ⟨ihS, ihL⟩ := ih
    constructor
    · intro st st' h
      simp only [statementF] at h
      obtain ⟨stb, hbranch, hnlh⟩ := bind_ok h
      obtain ⟨n3, hn3, hnl3, hbne⟩ := nlF_ok hnlh
      by_cases k1 : st.cur.kind = TokenType.PRINT
      · rw [if_pos k1] at hbranch
        have hne : st.toks ≠ [] := toks_ne_nil_of_kind (by rw [k1]; decide)
        by_cases kstr : st.advance.cur.kind = TokenType.STRING
        · rw [if_pos kstr] at hbranch
          cases hbranch
          have c1 : Chunk 1 [] st st.advance :=
            Chunk.ofExpr (ExprStep.advance_expr st (by rw [k1]; decide))
          have c2 : Chunk 1 [] st.advance
              ((st.advance.emit_line
                ("printf(\"" ++ st.advance.cur.text ++ "\\n\");")).advance) :=
            Chunk.one_into rfl rfl rfl (by rw [kstr]; decide)
          have call := c1.comp_chunk c2
          obtain ⟨hsok, hlast⟩ := stmt_finish call.1 call.2 hnl3 hn3 hbne
          refine ⟨_, _, ?_, hne, hsok, hlast⟩
          omega
        · rw [if_neg kstr] at hbranch
          obtain ⟨st2, he, hfin⟩ := bind_ok hbranch
          cases hfin
          obtain ⟨n2, hn2, hee, hne2⟩ := expressionF_ok he
          have c1 : Chunk 1 [] st (st.advance.emit ("printf(\"%" ++ ".2f\\n\", (float)(")) :=
            Chunk.one_into rfl rfl rfl (by rw [k1]; decide)
          have cfin : Chunk 0 [] st2 (st2.emit_line "));") :=
            Chunk.ofExpr (ExprStep.zero rfl rfl rfl)
          have call := (c1.comp_chunk (Chunk.ofExpr hee)).comp_chunk cfin
          obtain ⟨hsok, hlast⟩ := stmt_finish call.1 call.2 hnl3 hn3 hbne
          refine ⟨_, _, ?_, hne, hsok, hlast⟩
          omega
      · rw [if_neg k1] at hbranch
        by_cases k2 : st.cur.kind = TokenType.IF
        · rw [if_pos k2] at hbranch
          have hne : st.toks ≠ [] := toks_ne_nil_of_kind (by rw [k2]; decide)
          obtain ⟨st2, hcomp, hr1⟩ := bind_ok hbranch
          obtain ⟨st3, hthen, hr2⟩ := bind_ok hr1
          obtain ⟨st4, hnl1, hr3⟩ := bind_ok hr2
          obtain ⟨st5, hlist, hr4⟩ := bind_ok hr3
          obtain ⟨st6, hendif, hfin⟩ := bind_ok hr4
          cases hfin
          obtain ⟨nc, hnc, hec, hnec⟩ := comparisonF_ok hcomp
          obtain ⟨nn, hnn, hnln, hnlne⟩ := nlF_ok hnl1
          obtain ⟨nl5, f5, hsl, horl, hcurl⟩ := ihL hlist
          have c1 : Chunk 1 [] st (st.advance.emit "if(") :=
            Chunk.one_into rfl rfl rfl (by rw [k2]; decide)
          have c5 : Chunk 0 [] st4 (st4.emit_line ")\x7b") :=
            Chunk.ofExpr (ExprStep.zero rfl rfl rfl)
          have clist : Chunk nl5 f5 (st4.emit_line ")\x7b") st5 := by
            refine ⟨hsl, ?_⟩
            rcases horl with h0 | hl5
            · rw [h0]
              simpa using noLITail_nil
            · exact hl5.toNoLITail_last
          have c7 : Chunk 0 [] st6 (st6.emit_line "\x7d") :=
            Chunk.ofExpr (ExprStep.zero rfl rfl rfl)
          have call := ((((((c1.comp_chunk (Chunk.ofExpr hec)).comp_chunk
            (Chunk.ofMatch hthen (by decide))).comp_chunk (Chunk.ofNl hnln)).comp_chunk c5).comp_chunk
            clist).comp_chunk (Chunk.ofMatch hendif (by decide))).comp_chunk c7
          obtain ⟨hsok, hlast⟩ := stmt_finish call.1 call.2 hnl3 hn3 hbne
          refine ⟨_, _, ?_, hne, hsok, hlast⟩
          omega
        · rw [if_neg k2] at hbranch
          by_cases k3 : st.cur.kind = TokenType.WHILE
          · rw [if_pos k3] at hbranch
            have hne : st.toks ≠ [] := toks_ne_nil_of_kind (by rw [k3]; decide)
            obtain ⟨st2, hcomp, hr1⟩ := bind_ok hbranch
            obtain ⟨st3, hrep, hr2⟩ := bind_ok hr1
            obtain ⟨st4, hnl1, hr3⟩ := bind_ok hr2
            obtain ⟨st5, hlist, hr4⟩ := bind_ok hr3
            obtain ⟨st6, hendw, hfin⟩ := bind_ok hr4
            cases hfin
            obtain ⟨nc, hnc, hec, hnec⟩ := comparisonF_ok hcomp
            obtain ⟨nn, hnn, hnln, hnlne⟩ := nlF_ok hnl1
            obtain ⟨nl5, f5, hsl, horl, hcurl⟩ := ihL hlist
            have c1 : Chunk 1 [] st (st.advance.emit "while(") :=
              Chunk.one_into rfl rfl rfl (by rw [k3]; decide)
            have c5 : Chunk 0 [] st4 (st4.emit_line ")\x7b") :=
              Chunk.ofExpr (ExprStep.zero rfl rfl rfl)
            have clist : Chunk nl5 f5 (st4.emit_line ")\x7b") st5 := by
              refine ⟨hsl, ?_⟩
              rcases horl with h0 | hl5
              · rw [h0]
                simpa using noLITail_nil
              · exact hl5.toNoLITail_last
            have c7 : Chunk 0 [] st6 (st6.emit_line "\x7d") :=
              Chunk.ofExpr (ExprStep.zero rfl rfl rfl)
            have call := ((((((c1.comp_chunk (Chunk.ofExpr hec)).comp_chunk
              (Chunk.ofMatch hrep (by decide))).comp_chunk (Chunk.ofNl hnln)).comp_chunk c5).comp_chunk
              clist).comp_chunk (Chunk.ofMatch hendw (by decide))).comp_chunk c7
            obtain ⟨hsok, hlast⟩ := stmt_finish call.1 call.2 hnl3 hn3 hbne
            refine ⟨_, _, ?_, hne, hsok, hlast⟩
            omega
          · rw [if_neg k3] at hbranch
            by_cases k4 : st.cur.kind = TokenType.LABEL
            · rw [if_pos k4] at hbranch
              have hne : st.toks ≠ [] := toks_ne_nil_of_kind (by rw [k4]; decide)
              by_cases hdup : st.advance.cur.text ∈ st.advance.labels_declared
              · rw [if_pos hdup] at hbranch
                cases hbranch
              · rw [if_neg hdup] at hbranch
                have c2 := Chunk.ofMatch hbranch (by decide)
                have call : Chunk (1 + 1) ([] ++ []) st stb := by
                  refine Chunk.comp_chunk ?_ c2
                  exact Chunk.one_into rfl rfl rfl (by rw [k4]; decide)
                obtain ⟨hsok, hlast⟩ := stmt_finish call.1 call.2 hnl3 hn3 hbne
                refine ⟨_, _, ?_, hne, hsok, hlast⟩
                omega
            · rw [if_neg k4] at hbranch
              by_cases k5 : st.cur.kind = TokenType.GOTO
              · rw [if_pos k5] at hbranch
                have hne : st.toks ≠ [] := toks_ne_nil_of_kind (by rw [k5]; decide)
                have c2 := Chunk.ofMatch hbranch (by decide)
                have call : Chunk (1 + 1) ([] ++ []) st stb := by
                  refine Chunk.comp_chunk ?_ c2
                  exact Chunk.one_into rfl rfl rfl (by rw [k5]; decide)
                obtain ⟨hsok, hlast⟩ := stmt_finish call.1 call.2 hnl3 hn3 hbne
                refine ⟨_, _, ?_, hne, hsok, hlast⟩
                omega
              · rw [if_neg k5] at hbranch
                by_cases k6 : st.cur.kind = TokenType.LET
                · rw [if_pos k6] at hbranch
                  have hne : st.toks ≠ [] := toks_ne_nil_of_kind (by rw [k6]; decide)
                  by_cases hmem : st.advance.cur.text ∉ st.advance.symbols
                  · rw [if_pos hmem] at hbranch
                    obtain ⟨st3, hm1, hr1⟩ := bind_ok hbranch
                    obtain ⟨st4, hm2, hr2⟩ := bind_ok hr1
                    obtain ⟨st5, hexp, hfin⟩ := bind_ok hr2
                    cases hfin
                    obtain ⟨hm1a, hm1b⟩ := matchTok_ok hm1
                    have hcur2 : st.advance.cur.kind = TokenType.IDENT := hm1b
                    have hadvne : st.advance.toks ≠ [] :=
                      toks_ne_nil_of_kind (by rw [hcur2]; decide)
                    obtain ⟨t0, x0, r1, htoks⟩ := li_two_tokens hne hadvne
                    have hadvtoks : st.advance.toks = x0 :: r1 := by
                      show st.toks.drop 1 = x0 :: r1
                      rw [htoks]
                      rfl
                    have hx0 : st.advance.cur = x0 := PState.cur_head hadvtoks
                    have ht0 : t0.kind = TokenType.LET := by
                      rw [← PState.cur_head htoks]
                      exact k6
                    have hx0k : x0.kind = TokenType.IDENT := by rw [← hx0]; exact hcur2
                    have hx0nli : ¬ (x0.kind = TokenType.LET ∨ x0.kind = TokenType.INPUT) := by
                      rw [hx0k]; decide
                    have hmem2 : x0.text ∉ st.symbols := by
                      have h2 : st.advance.cur.text ∉ st.advance.symbols := hmem
                      rw [hx0] at h2
                      exact h2
                    obtain ⟨ne5, hne5, hee, hne5t⟩ := expressionF_ok hexp
                    have chead : Chunk 2 [x0.text] st st3 := by
                      show StepOk 2 [x0.text] st st3 ∧ noLITail (st.toks.take 2)
                      refine StepOk.li_head_new htoks (Or.inl ht0) hx0nli ?_ ?_ hmem2 ?_
                      · rw [hm1a]
                        show (st.toks.drop 1).drop 1 = st.toks.drop 2
                        simp [List.drop_drop]
                      · rw [hm1a]
                        show st.symbols ++ [st.advance.cur.text] = st.symbols ++ [x0.text]
                        rw [hx0]
                      · rw [hm1a]
                        show st.header ++ ("float " ++ st.advance.cur.text ++ ";") ++ "\n" =
                          st.header ++ ("float " ++ x0.text ++ ";") ++ "\n"
                        rw [hx0]
                    have cfin : Chunk 0 [] st5 (st5.emit_line ";") :=
                      Chunk.ofExpr (ExprStep.zero rfl rfl rfl)
                    have call := ((chead.comp_chunk (Chunk.ofMatch hm2 (by decide))).comp_chunk
                      (Chunk.ofExpr hee)).comp_chunk cfin
                    obtain ⟨hsok, hlast⟩ := stmt_finish call.1 call.2 hnl3 hn3 hbne
                    refine ⟨_, _, ?_, hne, hsok, hlast⟩
                    omega
                  · rw [if_neg hmem] at hbranch
                    obtain ⟨st3, hm1, hr1⟩ := bind_ok hbranch
                    obtain ⟨st4, hm2, hr2⟩ := bind_ok hr1
                    obtain ⟨st5, hexp, hfin⟩ := bind_ok hr2
                    cases hfin
                    obtain ⟨hm1a, hm1b⟩ := matchTok_ok hm1
                    have hcur2 : st.advance.cur.kind = TokenType.IDENT := hm1b
                    have hadvne : st.advance.toks ≠ [] :=
                      toks_ne_nil_of_kind (by rw [hcur2]; decide)
                    obtain ⟨t0, x0, r1, htoks⟩ := li_two_tokens hne hadvne
                    have hadvtoks : st.advance.toks = x0 :: r1 := by
                      show st.toks.drop 1 = x0 :: r1
                      rw [htoks]
                      rfl
                    have hx0 : st.advance.cur = x0 := PState.cur_head hadvtoks
                    have ht0 : t0.kind = TokenType.LET := by
                      rw [← PState.cur_head htoks]
                      exact k6
                    have hx0k : x0.kind = TokenType.IDENT := by rw [← hx0]; exact hcur2
                    have hx0nli : ¬ (x0.kind = TokenType.LET ∨ x0.kind = TokenType.INPUT) := by
                      rw [hx0k]; decide
                    have hmem2 : x0.text ∈ st.symbols := by
                      have h2 := not_not.mp hmem
                      rw [hx0] at h2
                      exact h2
                    obtain ⟨ne5, hne5, hee, hne5t⟩ := expressionF_ok hexp
                    have chead : Chunk 2 [] st st3 := by
                      show StepOk 2 [] st st3 ∧ noLITail (st.toks.take 2)
                      refine StepOk.li_head_old htoks (Or.inl ht0) hx0nli ?_ ?_ hmem2 ?_
                      · rw [hm1a]
                        show (st.toks.drop 1).drop 1 = st.toks.drop 2
                        simp [List.drop_drop]
                      · rw [hm1a]
                        rfl
                      · rw [hm1a]
                        rfl
                    have cfin : Chunk 0 [] st5 (st5.emit_line ";") :=
                      Chunk.ofExpr (ExprStep.zero rfl rfl rfl)
                    have call := ((chead.comp_chunk (Chunk.ofMatch hm2 (by decide))).comp_chunk
                      (Chunk.ofExpr hee)).comp_chunk cfin
                    obtain ⟨hsok, hlast⟩ := stmt_finish call.1 call.2 hnl3 hn3 hbne
                    refine ⟨_, _, ?_, hne, hsok, hlast⟩
                    omega
                · rw [if_neg k6] at hbranch
                  by_cases k7 : st.cur.kind = TokenType.INPUT
                  · rw [if_pos k7] at hbranch
                    have hne : st.toks ≠ [] := toks_ne_nil_of_kind (by rw [k7]; decide)
                    by_cases hmem : st.advance.cur.text ∉ st.advance.symbols
                    · rw [if_pos hmem] at hbranch
                      obtain ⟨hstba, hstbb⟩ := matchTok_ok hbranch
                      have hcur2 : st.advance.cur.kind = TokenType.IDENT := hstbb
                      have hadvne : st.advance.toks ≠ [] :=
                        toks_ne_nil_of_kind (by rw [hcur2]; decide)
                      obtain ⟨t0, x0, r1, htoks⟩ := li_two_tokens hne hadvne
                      have hadvtoks : st.advance.toks = x0 :: r1 := by
                        show st.toks.drop 1 = x0 :: r1
                        rw [htoks]
                        rfl
                      have hx0 : st.advance.cur = x0 := PState.cur_head hadvtoks
                      have ht0 : t0.kind = TokenType.INPUT := by
                        rw [← PState.cur_head htoks]
                        exact k7
                      have hx0k : x0.kind = TokenType.IDENT := by rw [← hx0]; exact hcur2
                      have hx0nli : ¬ (x0.kind = TokenType.LET ∨ x0.kind = TokenType.INPUT) := by
                        rw [hx0k]; decide
                      have hmem2 : x0.text ∉ st.symbols := by
                        have h2 : st.advance.cur.text ∉ st.advance.symbols := hmem
                        rw [hx0] at h2
                        exact h2
                      have chead : Chunk 2 [x0.text] st stb := by
                        show StepOk 2 [x0.text] st stb ∧ noLITail (st.toks.take 2)
                        refine StepOk.li_head_new htoks (Or.inr ht0) hx0nli ?_ ?_ hmem2 ?_
                        · rw [hstba]
                          show (st.toks.drop 1).drop 1 = st.toks.drop 2
                          simp [List.drop_drop]
                        · rw [hstba]
                          show st.symbols ++ [st.advance.cur.text] = st.symbols ++ [x0.text]
                          rw [hx0]
                        · rw [hstba]
                          show st.header ++ ("float " ++ st.advance.cur.text ++ ";") ++ "\n" =
                            st.header ++ ("float " ++ x0.text ++ ";") ++ "\n"
                          rw [hx0]
                      obtain ⟨hsok, hlast⟩ := stmt_finish chead.1 chead.2 hnl3 hn3 hbne
                      refine ⟨_, _, ?_, hne, hsok, hlast⟩
                      omega
                    · rw [if_neg hmem] at hbranch
                      obtain ⟨hstba, hstbb⟩ := matchTok_ok hbranch
                      have hcur2 : st.advance.cur.kind = TokenType.IDENT := hstbb
                      have hadvne : st.advance.toks ≠ [] :=
                        toks_ne_nil_of_kind (by rw [hcur2]; decide)
                      obtain ⟨t0, x0, r1, htoks⟩ := li_two_tokens hne hadvne
                      have hadvtoks : st.advance.toks = x0 :: r1 := by
                        show st.toks.drop 1 = x0 :: r1
                        rw [htoks]
                        rfl
                      have hx0 : st.advance.cur = x0 := PState.cur_head hadvtoks
                      have ht0 : t0.kind = TokenType.INPUT := by
                        rw [← PState.cur_head htoks]
                        exact k7
                      have hx0k : x0.kind = TokenType.IDENT := by rw [← hx0]; exact hcur2
                      have hx0nli : ¬ (x0.kind = TokenType.LET ∨ x0.kind = TokenType.INPUT) := by
                        rw [hx0k]; decide
                      have hmem2 : x0.text ∈ st.symbols := by
                        have h2 := not_not.mp hmem
                        rw [hx0] at h2
                        exact h2
                      have chead : Chunk 2 [] st stb := by
                        show StepOk 2 [] st stb ∧ noLITail (st.toks.take 2)
                        refine StepOk.li_head_old htoks (Or.inr ht0) hx0nli ?_ ?_ hmem2 ?_
                        · rw [hstba]
                          show (st.toks.drop 1).drop 1 = st.toks.drop 2
                          simp [List.drop_drop]
                        · rw [hstba]
                          rfl
                        · rw [hstba]
                          rfl
                      obtain ⟨hsok, hlast⟩ := stmt_finish chead.1 chead.2 hnl3 hn3 hbne
                      refine ⟨_, _, ?_, hne, hsok, hlast⟩
                      omega
                  · rw [if_neg k7] at hbranch
                    cases hbranch
    · intro endK st st' h
      simp only [stmtListF] at h
      by_cases hend : st.cur.kind = endK
      · rw [if_pos hend] at h
        cases h
        exact ⟨0, [], (ExprStep.refl_expr st).toStepOk, Or.inl rfl, hend⟩
      · rw [if_neg hend] at h
        obtain ⟨u, hs, hrest⟩ := bind_ok h
        obtain ⟨n1, f1, hn1, hne1, hst1, hlast1⟩ := ihS hs
        obtain ⟨n2, f2, hst2, hor2, hcur2⟩ := ihL hrest
        refine ⟨n1 + n2, f1 ++ f2, hst1.comp_step hst2 hlast1.toNoLITail_last, ?_, hcur2⟩
        right
        rcases hor2 with h0 | hlast2
        · subst h0
          rw [Nat.add_zero]
          exact hlast1
        · rw [take_add_split n1 st.toks n2, ← hst1.1]
          exact hlast2.append_left _

/-- The shape of a successfully produced token stream: some non-EOF tokens
followed by exactly one EOF token. -/
theorem lexAllF_shape {fuel : Nat} {s : LexState} {ts : List Token}
    (h : lexAllF fuel s = .ok ts) :
    ∃ pre e, ts = pre ++ [e] ∧ (∀ u ∈ pre, u.kind ≠ TokenType.EOF) ∧
      e.kind = TokenType.EOF := by
  induction fuel generalizing s ts with
  | zero => cases h
  | succ f ih =>
    simp only [lexAllF] at h
    cases hgt : getToken s with
    | err m => simp only [hgt] at h; cases h
    | hang => simp only [hgt] at h; cases h
    | tok t s1 =>
      simp only [hgt] at h
      by_cases heof : t.kind = TokenType.EOF
      · rw [if_pos heof] at h
        cases hgt2 : getToken s1 with
        | err m => simp only [hgt2] at h; cases h
        | hang => simp only [hgt2] at h; cases h
        | tok t2 s2 =>
          simp only [hgt2] at h
          cases h
          exact ⟨[], t, rfl, by simp, heof⟩
      · rw [if_neg heof] at h
        cases hr : lexAllF f s1 with
        | ok ts1 =>
          simp only [hr] at h
          cases h
          obtain ⟨pre, e, rfl, hpre, he⟩ := ih hr
          refine ⟨t :: pre, e, rfl, ?_, he⟩
          intro u hu
          rcases List.mem_cons.mp hu with rfl | hu2
          · exact heof
          · exact hpre u hu2
        | err m => simp only [hr] at h; cases h
        | hang => simp only [hr] at h; cases h
        | fuelOut => simp only [hr] at h; cases h

theorem drop_append_ge {α : Type} : ∀ (pre l : List α) (k : Nat),
    (pre ++ l).drop (pre.length + k) = l.drop k := by
  intro pre
  induction pre with
  | nil =>
    intro l k
    simp
  | cons a r ih =>
    intro l k
    simp only [List.cons_append, List.length_cons]
    rw [show r.length + 1 + k = (r.length + k) + 1 from by omega]
    rw [List.drop_succ_cons]
    exact ih l k

theorem targets_drop_single (e : Token) (k : Nat) :
    specLetInputTargets (([e] : List Token).drop k) = [] := by
  cases k with
  | zero => rfl
  | succ m =>
    rw [List.drop_succ_cons, List.drop_nil]
    rfl

/-- C4: for every successfully compiled program the final symbol table is
exactly the set of LET/INPUT targets of the token stream, it holds each such
identifier exactly once, and the header region is the scaffolding followed by
exactly one declaration line per symbol, in first-declaration order. -/
theorem c4_symbol_table (ord : List String → List String) (f : Nat) (input : String)
    (hdr code : String) (h : compileF ord f input = .ok (hdr, code)) :
    ∃ ts st, lexProgram input = .ok ts ∧ programF f ord ts = .ok st ∧
      hdr = st.header ∧ code = st.code ∧
      (∀ y, y ∈ st.symbols ↔ y ∈ specLetInputTargets ts) ∧
      st.symbols.Nodup ∧
      st.header = scaffoldHeader ++ declsOf st.symbols := by
  unfold compileF at h
  obtain ⟨ts, hlex, h2⟩ := bind_ok h
  obtain ⟨stf, hp, h3⟩ := bind_ok h2
  cases h3
  have hpr := hp
  unfold programF at hpr
  obtain ⟨stb, hbody, hr1⟩ := bind_ok hpr
  obtain ⟨uu, hlc, hfin⟩ := bind_ok hr1
  cases hfin
  unfold programBodyF at hbody
  obtain ⟨s1, hnl0, hr2⟩ := bind_ok hbody
  obtain ⟨s2, hsl, hfin2⟩ := bind_ok hr2
  cases hfin2
  obtain ⟨n0, hnl0s⟩ := nlLoopF_ok hnl0
  obtain ⟨n1, f1, hsok1, hor1, hcur1⟩ := (statement_stmtList_ok f).2 hsl
  have c0 : Chunk n0 [] (initPState ts) s1 := Chunk.ofNl hnl0s
  have c1 : Chunk n1 f1 s1 s2 := by
    refine ⟨hsok1, ?_⟩
    rcases hor1 with h0 | hl1
    · rw [h0]
      simpa using noLITail_nil
    · exact hl1.toNoLITail_last
  have call := c0.comp_chunk c1
  obtain ⟨⟨htk, hsy, hni, hnd, hhd, hfi, hti⟩, hnoli⟩ := call
  have hsym : s2.symbols = f1 := by
    rw [hsy]
    rfl
  have hnd2 : s2.symbols.Nodup := by
    rw [hsym]
    rw [List.nil_append] at hnd
    exact hnd
  have hhd2 : s2.header = scaffoldHeader ++ declsOf s2.symbols := by
    rw [hhd, hsym]
    rfl
  have hlex2 := hlex
  unfold lexProgram at hlex2
  obtain ⟨pre, e, hts, hpre, he⟩ := lexAllF_shape hlex2
  have hcur2 : s2.cur.kind = TokenType.EOF := hcur1
  have hts2 : s2.toks = ts.drop (n0 + n1) := htk
  have hnoli2 : noLITail (ts.take (n0 + n1)) := hnoli
  have hge : pre.length ≤ n0 + n1 := by
    by_contra hlt
    push_neg at hlt
    have hdrop : ts.drop (n0 + n1) = pre.drop (n0 + n1) ++ [e] := by
      rw [hts, List.drop_append_of_le_length (le_of_lt hlt)]
    cases hd : pre.drop (n0 + n1) with
    | nil =>
      have h0 : pre.length - (n0 + n1) = 0 := by
        rw [← List.length_drop, hd]
        rfl
      omega
    | cons a r =>
      have hcur3 : s2.cur = a := PState.cur_head (by rw [hts2, hdrop, hd]; rfl)
      have hmem : a ∈ pre :=
        List.drop_subset _ _ (by rw [hd]; exact List.mem_cons_self a r)
      exact hpre a hmem (by rw [← hcur3]; exact hcur2)
  have hdropT : specLetInputTargets (ts.drop (n0 + n1)) = [] := by
    rw [hts, show n0 + n1 = pre.length + (n0 + n1 - pre.length) from by omega, drop_append_ge]
    exact targets_drop_single e _
  have htargets : specLetInputTargets ts = specLetInputTargets (ts.take (n0 + n1)) := by
    conv_lhs => rw [← List.take_append_drop (n0 + n1) ts]
    rw [specLetInputTargets_append hnoli2, hdropT, List.append_nil]
  refine ⟨ts, _, hlex, hp, rfl, rfl, ?_, hnd2, hhd2⟩
  intro y
  show y ∈ s2.symbols ↔ y ∈ specLetInputTargets ts
  rw [hsym, htargets]
  constructor
  · intro hy
    exact hfi y (by rw [List.nil_append]; exact hy)
  · intro hy
    have h4 := hti y hy
    rcases h4 with h4 | h4
    · simp [initPState] at h4
    · rw [List.nil_append] at h4
      exact h4

/-- The LET/INPUT targets of the witness program. -/
theorem c4_symbol_table_witness :
    ∃ ts st, lexProgram "LET a = 1\nLET a = 2" = .ok ts ∧
      programF 46 id ts = .ok st ∧
      "#include <stdio.h>\nint main(void)\x7b\nfloat a;\n" = st.header ∧
      "a = 1;\na = 2;\nreturn 0;\n\x7d\n" = st.code ∧
      (∀ y, y ∈ st.symbols ↔ y ∈ specLetInputTargets ts) ∧
      st.symbols.Nodup ∧
      st.header = scaffoldHeader ++ declsOf st.symbols :=
  c4_symbol_table id 46 "LET a = 1\nLET a = 2"
    "#include <stdio.h>\nint main(void)\x7b\nfloat a;\n"
    "a = 1;\na = 2;\nreturn 0;\n\x7d\n" (by decide)

/-! ### Settledness: with enough fuel, every phase finishes with a result or
a diagnostic (the fueled embedding's rendering of termination). -/

theorem Outcome.bind_assoc {α β γ : Type} (a : Outcome α) (k : α → Outcome β)
    (h : β → Outcome γ) : (a.bind k).bind h = a.bind fun x => (k x).bind h := by
  cases a <;> rfl

theorem settled_bind {α β : Type} {a : Outcome α} {k : α → Outcome β}
    (ha : a.settled = true) (hk : ∀ x, a = .ok x → (k x).settled = true) :
    (a.bind k).settled = true := by
  cases a with
  | ok x => exact hk x rfl
  | err m => rfl
  | hang => simp [Outcome.settled] at ha
  | fuelOut => simp [Outcome.settled] at ha

theorem ExprStep.len_le {n : Nat} {st st' : PState} (h : ExprStep n st st') :
    st'.toks.length ≤ st.toks.length := by
  rw [h.1, List.length_drop]
  omega

theorem ExprStep.len_lt {n : Nat} {st st' : PState} (h : ExprStep n st st')
    (hn : 1 ≤ n) (hne : st.toks ≠ []) : st'.toks.length < st.toks.length := by
  rw [h.1, List.length_drop]
  have h0 : st.toks.length ≠ 0 := fun hc => hne (List.eq_nil_of_length_eq_zero hc)
  omega

theorem matchTok_settled (k : TokenType) (st : PState) :
    (matchTok k st).settled = true := by
  unfold matchTok
  by_cases h : k = st.cur.kind
  · rw [if_pos h]; rfl
  · rw [if_neg h]; rfl

theorem primaryF_settled (st : PState) : (primaryF st).settled = true := by
  unfold primaryF
  by_cases h1 : st.cur.kind = TokenType.NUMBER
  · rw [if_pos h1]; rfl
  · rw [if_neg h1]
    by_cases h2 : st.cur.kind = TokenType.IDENT
    · rw [if_pos h2]
      by_cases h3 : st.cur.text ∉ st.symbols
      · rw [if_pos h3]; rfl
      · rw [if_neg h3]; rfl
    · rw [if_neg h2]; rfl

theorem unaryF_settled (st : PState) : (unaryF st).settled = true := by
  unfold unaryF
  by_cases h : st.cur.kind = TokenType.PLUS ∨ st.cur.kind = TokenType.MINUS
  · rw [if_pos h]; exact primaryF_settled _
  · rw [if_neg h]; exact primaryF_settled _

theorem termLoopF_settled : ∀ {f : Nat} {st : PState}, st.toks.length < f →
    (termLoopF f st).settled = true := by
  intro f
  induction f with
  | zero => intro st h; omega
  | succ g ih =>
    intro st h
    simp only [termLoopF]
    by_cases hc : st.cur.kind = TokenType.ASTERISK ∨ st.cur.kind = TokenType.SLASH
    · rw [if_pos hc]
      refine settled_bind (unaryF_settled _) ?_
      intro u hu
      obtain ⟨n, hn, he, hne⟩ := unaryF_ok hu
      apply ih
      have hstne : st.toks ≠ [] :=
        toks_ne_nil_of_kind (by rcases hc with hc | hc <;> rw [hc] <;> decide)
      have hA : ((st.emit st.cur.text).advance).toks.length < st.toks.length := by
        show (st.toks.drop 1).length < st.toks.length
        rw [List.length_drop]
        have h0 : st.toks.length ≠ 0 := fun hc2 => hstne (List.eq_nil_of_length_eq_zero hc2)
        omega
      have hu2 := he.len_lt hn hne
      omega
    · rw [if_neg hc]; rfl

theorem termF_settled {f : Nat} {st : PState} (h : st.toks.length ≤ f) :
    (termF f st).settled = true := by
  unfold termF
  refine settled_bind (unaryF_settled st) ?_
  intro u hu
  obtain ⟨n, hn, he, hne⟩ := unaryF_ok hu
  apply termLoopF_settled
  have := he.len_lt hn hne
  omega

theorem exprLoopF_settled : ∀ {f : Nat} {st : PState}, st.toks.length < f →
    (exprLoopF f st).settled = true := by
  intro f
  induction f with
  | zero => intro st h; omega
  | succ g ih =>
    intro st h
    simp only [exprLoopF]
    by_cases hc : st.cur.kind = TokenType.PLUS ∨ st.cur.kind = TokenType.MINUS
    · rw [if_pos hc]
      have hstne : st.toks ≠ [] :=
        toks_ne_nil_of_kind (by rcases hc with hc | hc <;> rw [hc] <;> decide)
      have hA : ((st.emit st.cur.text).advance).toks.length < st.toks.length := by
        show (st.toks.drop 1).length < st.toks.length
        rw [List.length_drop]
        have h0 : st.toks.length ≠ 0 := fun hc2 => hstne (List.eq_nil_of_length_eq_zero hc2)
        omega
      refine settled_bind (termF_settled (by omega)) ?_
      intro u hu
      obtain ⟨n, hn, he, hne⟩ := termF_ok hu
      apply ih
      have hu2 := he.len_lt hn hne
      omega
    · rw [if_neg hc]; rfl

theorem expressionF_settled {f : Nat} {st : PState} (h : st.toks.length ≤ f) :
    (expressionF f st).settled = true := by
  unfold expressionF
  refine settled_bind (termF_settled h) ?_
  intro u hu
  obtain ⟨n, hn, he, hne⟩ := termF_ok hu
  apply exprLoopF_settled
  have := he.len_lt hn hne
  omega

theorem comparison_kind_ne_eof {k : TokenType} (h : isComparisonOp k) :
    k ≠ TokenType.EOF := by
  rcases h with h | h | h | h | h | h <;> rw [h] <;> decide

theorem comparisonLoopF_settled : ∀ {f : Nat} {st : PState}, st.toks.length < f →
    (comparisonLoopF f st).settled = true := by
  intro f
  induction f with
  | zero => intro st h; omega
  | succ g ih =>
    intro st h
    simp only [comparisonLoopF]
    by_cases hc : isComparisonOp st.cur.kind
    · rw [if_pos hc]
      have hstne : st.toks ≠ [] := toks_ne_nil_of_kind (comparison_kind_ne_eof hc)
      have hA : ((st.emit st.cur.text).advance).toks.length < st.toks.length := by
        show (st.toks.drop 1).length < st.toks.length
        rw [List.length_drop]
        have h0 : st.toks.length ≠ 0 := fun hc2 => hstne (List.eq_nil_of_length_eq_zero hc2)
        omega
      refine settled_bind (expressionF_settled (by omega)) ?_
      intro u hu
      obtain ⟨n, hn, he, hne⟩ := expressionF_ok hu
      apply ih
      have hu2 := he.len_lt hn hne
      omega
    · rw [if_neg hc]; rfl

theorem comparisonF_settled {f : Nat} {st : PState} (h : st.toks.length ≤ f) :
    (comparisonF f st).settled = true := by
  unfold comparisonF
  refine settled_bind (expressionF_settled h) ?_
  intro st1 h1
  obtain ⟨n1, hn1, he1, hne1⟩ := expressionF_ok h1
  have l1 := he1.len_le
  by_cases hc : isComparisonOp st1.cur.kind
  · rw [if_pos hc]
    have hst1ne : st1.toks ≠ [] := toks_ne_nil_of_kind (comparison_kind_ne_eof hc)
    have hB : ((st1.emit st1.cur.text).advance).toks.length < st1.toks.length := by
      show (st1.toks.drop 1).length < st1.toks.length
      rw [List.length_drop]
      have h0 : st1.toks.length ≠ 0 := fun hc2 => hst1ne (List.eq_nil_of_length_eq_zero hc2)
      omega
    refine settled_bind (expressionF_settled (by omega)) ?_
    intro u hu
    obtain ⟨n2, hn2, he2, hne2⟩ := expressionF_ok hu
    apply comparisonLoopF_settled
    have hu2 := he2.len_lt hn2 hne2
    omega
  · rw [if_neg hc]; rfl

theorem nlLoopF_settled : ∀ {f : Nat} {st : PState}, st.toks.length < f →
    (nlLoopF f st).settled = true := by
  intro f
  induction f with
  | zero => intro st h; omega
  | succ g ih =>
    intro st h
    simp only [nlLoopF]
    by_cases hc : st.cur.kind = TokenType.NEWLINE
    · rw [if_pos hc]
      have hstne : st.toks ≠ [] := toks_ne_nil_of_kind (by rw [hc]; decide)
      apply ih
      show (st.toks.drop 1).length < g
      rw [List.length_drop]
      have h0 : st.toks.length ≠ 0 := fun hc2 => hstne (List.eq_nil_of_length_eq_zero hc2)
      omega
    · rw [if_neg hc]; rfl

theorem nlF_settled {f : Nat} {st : PState} (h : st.toks.length ≤ f) :
    (nlF f st).settled = true := by
  unfold nlF
  refine settled_bind (matchTok_settled _ _) ?_
  intro u hu
  obtain ⟨hu1, hu2⟩ := matchTok_ok hu
  have hstne : st.toks ≠ [] := toks_ne_nil_of_kind (by rw [hu2]; decide)
  apply nlLoopF_settled
  rw [hu1]
  show (st.toks.drop 1).length < f
  rw [List.length_drop]
  have h0 : st.toks.length ≠ 0 := fun hc2 => hstne (List.eq_nil_of_length_eq_zero hc2)
  omega

theorem settled_ok_bind {α β : Type} {x : α} {k : α → Outcome β}
    (h : (k x).settled = true) : ((Outcome.ok x).bind k).settled = true := h

/-- With fuel exceeding twice the remaining token count, `statement` and the
statement loops finish with a state or a diagnostic: they cannot diverge or
exhaust the fuel. -/
theorem statement_stmtList_settled : ∀ f : Nat,
    (∀ st : PState, 2 * st.toks.length + 2 ≤ f → (statementF f st).settled = true) ∧
    (∀ (endK : TokenType) (st : PState), 2 * st.toks.length + 3 ≤ f →
      (stmtListF f endK st).settled = true) := by
  intro f
  induction f with
  | zero => exact ⟨fun st h => by omega, fun endK st h => by omega⟩
  | succ g ih =>
    obtain ⟨ihS, ihL⟩ := ih
    constructor
    · intro st hf
      simp only [statementF]
      by_cases k1 : st.cur.kind = TokenType.PRINT
      · rw [if_pos k1]
        have hstne : st.toks ≠ [] := toks_ne_nil_of_kind (by rw [k1]; decide)
        have h0 : st.toks.length ≠ 0 := fun hc2 => hstne (List.eq_nil_of_length_eq_zero hc2)
        by_cases kstr : st.advance.cur.kind = TokenType.STRING
        · rw [if_pos kstr]
          apply settled_ok_bind
          apply nlF_settled
          show ((st.toks.drop 1).drop 1).length ≤ g
          simp only [List.length_drop]
          omega
        · rw [if_neg kstr]
          simp only [Outcome.bind_assoc]
          refine settled_bind (expressionF_settled ?_) ?_
          · show (st.toks.drop 1).length ≤ g
            rw [List.length_drop]
            omega
          intro st2 h2
          dsimp only
          obtain ⟨n2, hn2, he2, hne2⟩ := expressionF_ok h2
          have l2 := he2.len_le
          have lA : (st.advance.emit ("printf(\"%" ++ ".2f\\n\", (float)(")).toks.length ≤
              st.toks.length := by
            show (st.toks.drop 1).length ≤ st.toks.length
            rw [List.length_drop]
            omega
          apply settled_ok_bind
          apply nlF_settled
          show st2.toks.length ≤ g
          omega
      · rw [if_neg k1]
        by_cases k2 : st.cur.kind = TokenType.IF
        · rw [if_pos k2]
          have hstne : st.toks ≠ [] := toks_ne_nil_of_kind (by rw [k2]; decide)
          have h0 : st.toks.length ≠ 0 := fun hc2 => hstne (List.eq_nil_of_length_eq_zero hc2)
          simp only [Outcome.bind_assoc]
          refine settled_bind (comparisonF_settled ?_) ?_
          · show (st.toks.drop 1).length ≤ g
            rw [List.length_drop]
            omega
          intro st2 h2
          dsimp only
          obtain ⟨nc, hnc, hec, hnec⟩ := comparisonF_ok h2
          have lA : (st.advance.emit "if(").toks.length < st.toks.length := by
            show (st.toks.drop 1).length < st.toks.length
            rw [List.length_drop]
            omega
          have l2 := hec.len_lt hnc hnec
          refine settled_bind (matchTok_settled _ _) ?_
          intro st3 h3
          dsimp only
          obtain ⟨h3a, h3b⟩ := matchTok_ok h3
          have hst2ne : st2.toks ≠ [] := toks_ne_nil_of_kind (by rw [h3b]; decide)
          have h02 : st2.toks.length ≠ 0 :=
            fun hc2 => hst2ne (List.eq_nil_of_length_eq_zero hc2)
          have l3 : st3.toks.length < st2.toks.length := by
            rw [h3a]
            show (st2.toks.drop 1).length < st2.toks.length
            rw [List.length_drop]
            omega
          refine settled_bind (nlF_settled ?_) ?_
          · omega
          intro st4 h4
          dsimp only
          obtain ⟨nn, hnn, hnl4, hne4⟩ := nlF_ok h4
          have l4 := hnl4.toExprStep.len_lt hnn hne4
          refine settled_bind ?_ ?_
          · apply ihL
            show 2 * st4.toks.length + 3 ≤ g
            omega
          intro st5 h5
          dsimp only
          obtain ⟨n5, f5, hsok5, hor5, hcur5⟩ := (statement_stmtList_ok g).2 h5
          have l5 : st5.toks.length ≤ st4.toks.length := by
            rw [hsok5.1]
            show (st4.toks.drop n5).length ≤ st4.toks.length
            rw [List.length_drop]
            omega
          refine settled_bind (matchTok_settled _ _) ?_
          intro st6 h6
          dsimp only
          obtain ⟨h6a, h6b⟩ := matchTok_ok h6
          have l6 : st6.toks.length ≤ st5.toks.length := by
            rw [h6a]
            show (st5.toks.drop 1).length ≤ st5.toks.length
            rw [List.length_drop]
            omega
          apply settled_ok_bind
          apply nlF_settled
          show st6.toks.length ≤ g
          omega
        · rw [if_neg k2]
          by_cases k3 : st.cur.kind = TokenType.WHILE
          · rw [if_pos k3]
            have hstne : st.toks ≠ [] := toks_ne_nil_of_kind (by rw [k3]; decide)
            have h0 : st.toks.length ≠ 0 :=
              fun hc2 => hstne (List.eq_nil_of_length_eq_zero hc2)
            simp only [Outcome.bind_assoc]
            refine settled_bind (comparisonF_settled ?_) ?_
            · show (st.toks.drop 1).length ≤ g
              rw [List.length_drop]
              omega
            intro st2 h2
            dsimp only
            obtain ⟨nc, hnc, hec, hnec⟩ := comparisonF_ok h2
            have lA : (st.advance.emit "while(").toks.length < st.toks.length := by
              show (st.toks.drop 1).length < st.toks.length
              rw [List.length_drop]
              omega
            have l2 := hec.len_lt hnc hnec
            refine settled_bind (matchTok_settled _ _) ?_
            intro st3 h3
            dsimp only
            obtain ⟨h3a, h3b⟩ := matchTok_ok h3
            have hst2ne : st2.toks ≠ [] := toks_ne_nil_of_kind (by rw [h3b]; decide)
            have h02 : st2.toks.length ≠ 0 :=
              fun hc2 => hst2ne (List.eq_nil_of_length_eq_zero hc2)
            have l3 : st3.toks.length < st2.toks.length := by
              rw [h3a]
              show (st2.toks.drop 1).length < st2.toks.length
              rw [List.length_drop]
              omega
            refine settled_bind (nlF_settled ?_) ?_
            · omega
            intro st4 h4
            dsimp only
            obtain ⟨nn, hnn, hnl4, hne4⟩ := nlF_ok h4
            have l4 := hnl4.toExprStep.len_lt hnn hne4
            refine settled_bind ?_ ?_
            · apply ihL
              show 2 * st4.toks.length + 3 ≤ g
              omega
            intro st5 h5
            dsimp only
            obtain ⟨n5, f5, hsok5, hor5, hcur5⟩ := (statement_stmtList_ok g).2 h5
            have l5 : st5.toks.length ≤ st4.toks.length := by
              rw [hsok5.1]
              show (st4.toks.drop n5).length ≤ st4.toks.length
              rw [List.length_drop]
              omega
            refine settled_bind (matchTok_settled _ _) ?_
            intro st6 h6
            dsimp only
            obtain ⟨h6a, h6b⟩ := matchTok_ok h6
            have l6 : st6.toks.length ≤ st5.toks.length := by
              rw [h6a]
              show (st5.toks.drop 1).length ≤ st5.toks.length
              rw [List.length_drop]
              omega
            apply settled_ok_bind
            apply nlF_settled
            show st6.toks.length ≤ g
            omega
          · rw [if_neg k3]
            by_cases k4 : st.cur.kind = TokenType.LABEL
            · rw [if_pos k4]
              have hstne : st.toks ≠ [] := toks_ne_nil_of_kind (by rw [k4]; decide)
              have h0 : st.toks.length ≠ 0 :=
                fun hc2 => hstne (List.eq_nil_of_length_eq_zero hc2)
              by_cases hdup : st.advance.cur.text ∈ st.advance.labels_declared
              · rw [if_pos hdup]
                rfl
              · rw [if_neg hdup]
                refine settled_bind (matchTok_settled _ _) ?_
                intro stb hb
                obtain ⟨hba, hbb⟩ := matchTok_ok hb
                apply nlF_settled
                rw [hba]
                show ((st.toks.drop 1).drop 1).length ≤ g
                simp only [List.length_drop]
                omega
            · rw [if_neg k4]
              by_cases k5 : st.cur.kind = TokenType.GOTO
              · rw [if_pos k5]
                have hstne : st.toks ≠ [] := toks_ne_nil_of_kind (by rw [k5]; decide)
                have h0 : st.toks.length ≠ 0 :=
                  fun hc2 => hstne (List.eq_nil_of_length_eq_zero hc2)
                refine settled_bind (matchTok_settled _ _) ?_
                intro stb hb
                obtain ⟨hba, hbb⟩ := matchTok_ok hb
                apply nlF_settled
                rw [hba]
                show ((st.toks.drop 1).drop 1).length ≤ g
                simp only [List.length_drop]
                omega
              · rw [if_neg k5]
                by_cases k6 : st.cur.kind = TokenType.LET
                · rw [if_pos k6]
                  have hstne : st.toks ≠ [] := toks_ne_nil_of_kind (by rw [k6]; decide)
                  have h0 : st.toks.length ≠ 0 :=
                    fun hc2 => hstne (List.eq_nil_of_length_eq_zero hc2)
                  simp only [Outcome.bind_assoc]
                  by_cases hmem : st.advance.cur.text ∉ st.advance.symbols
                  · rw [if_pos hmem]
                    refine settled_bind (matchTok_settled _ _) ?_
                    intro st3 h3
                    dsimp only
                    obtain ⟨h3a, h3b⟩ := matchTok_ok h3
                    have l3 : st3.toks.length ≤ st.toks.length := by
                      rw [h3a]
                      show ((st.toks.drop 1).drop 1).length ≤ st.toks.length
                      simp only [List.length_drop]
                      omega
                    refine settled_bind (matchTok_settled _ _) ?_
                    intro st4 h4
                    dsimp only
                    obtain ⟨h4a, h4b⟩ := matchTok_ok h4
                    have l4 : st4.toks.length ≤ st3.toks.length := by
                      rw [h4a]
                      show (st3.toks.drop 1).length ≤ st3.toks.length
                      rw [List.length_drop]
                      omega
                    refine settled_bind (expressionF_settled ?_) ?_
                    · omega
                    intro st5 h5
                    dsimp only
                    obtain ⟨n5, hn5, he5, hne5⟩ := expressionF_ok h5
                    have l5 := he5.len_le
                    apply settled_ok_bind
                    apply nlF_settled
                    show st5.toks.length ≤ g
                    omega
                  · rw [if_neg hmem]
                    refine settled_bind (matchTok_settled _ _) ?_
                    intro st3 h3
                    dsimp only
                    obtain ⟨h3a, h3b⟩ := matchTok_ok h3
                    have l3 : st3.toks.length ≤ st.toks.length := by
                      rw [h3a]
                      show ((st.toks.drop 1).drop 1).length ≤ st.toks.length
                      simp only [List.length_drop]
                      omega
                    refine settled_bind (matchTok_settled _ _) ?_
                    intro st4 h4
                    dsimp only
                    obtain ⟨h4a, h4b⟩ := matchTok_ok h4
                    have l4 : st4.toks.length ≤ st3.toks.length := by
                      rw [h4a]
                      show (st3.toks.drop 1).length ≤ st3.toks.length
                      rw [List.length_drop]
                      omega
                    refine settled_bind (expressionF_settled ?_) ?_
                    · omega
                    intro st5 h5
                    dsimp only
                    obtain ⟨n5, hn5, he5, hne5⟩ := expressionF_ok h5
                    have l5 := he5.len_le
                    apply settled_ok_bind
                    apply nlF_settled
                    show st5.toks.length ≤ g
                    omega
                · rw [if_neg k6]
                  by_cases k7 : st.cur.kind = TokenType.INPUT
                  · rw [if_pos k7]
                    have hstne : st.toks ≠ [] := toks_ne_nil_of_kind (by rw [k7]; decide)
                    have h0 : st.toks.length ≠ 0 :=
                      fun hc2 => hstne (List.eq_nil_of_length_eq_zero hc2)
                    by_cases hmem : st.advance.cur.text ∉ st.advance.symbols
                    · rw [if_pos hmem]
                      refine settled_bind (matchTok_settled _ _) ?_
                      intro stb hb
                      obtain ⟨hba, hbb⟩ := matchTok_ok hb
                      apply nlF_settled
                      rw [hba]
                      show ((st.toks.drop 1).drop 1).length ≤ g
                      simp only [List.length_drop]
                      omega
                    · rw [if_neg hmem]
                      refine settled_bind (matchTok_settled _ _) ?_
                      intro stb hb
                      obtain ⟨hba, hbb⟩ := matchTok_ok hb
                      apply nlF_settled
                      rw [hba]
                      show ((st.toks.drop 1).drop 1).length ≤ g
                      simp only [List.length_drop]
                      omega
                  · rw [if_neg k7]
                    rfl
    · intro endK st hf
      simp only [stmtListF]
      by_cases hend : st.cur.kind = endK
      · rw [if_pos hend]
        rfl
      · rw [if_neg hend]
        refine settled_bind (ihS st ?_) ?_
        · omega
        intro u hu
        obtain ⟨n, fr, hn, hne, hsok, hlast⟩ := (statement_stmtList_ok g).1 hu
        apply ihL
        have h0 : st.toks.length ≠ 0 := fun hc => hne (List.eq_nil_of_length_eq_zero hc)
        have hlt : u.toks.length < st.toks.length := by
          rw [hsok.1, List.length_drop]
          omega
        omega

/-- Each token costs at least one character of the source: the stream is at
most one longer than the unread part of the source. -/
theorem lexAllF_length_src {fuel : Nat} {s : LexState} {ts : List Token}
    (h : lexAllF fuel s = .ok ts) : ts.length ≤ s.source.length - s.pos + 1 := by
  induction fuel generalizing s ts with
  | zero => cases h
  | succ f ih =>
    simp only [lexAllF] at h
    cases hgt : getToken s with
    | err m => simp only [hgt] at h; cases h
    | hang => simp only [hgt] at h; cases h
    | tok t s1 =>
      simp only [hgt] at h
      obtain ⟨hsrc, hpos, hble⟩ := getToken_tok hgt
      by_cases heof : t.kind = TokenType.EOF
      · rw [if_pos heof] at h
        cases hgt2 : getToken s1 with
        | err m => simp only [hgt2] at h; cases h
        | hang => simp only [hgt2] at h; cases h
        | tok t2 s2 =>
          simp only [hgt2] at h
          cases h
          simp only [List.length_singleton]
          omega
      · rw [if_neg heof] at h
        cases hr : lexAllF f s1 with
        | ok ts1 =>
          simp only [hr] at h
          cases h
          have hih := ih hr
          rw [hsrc] at hih
          have hle := hble heof
          simp only [List.length_cons]
          omega
        | err m => simp only [hr] at h; cases h
        | hang => simp only [hr] at h; cases h
        | fuelOut => simp only [hr] at h; cases h

theorem programBodyF_settled {f : Nat} {ts : List Token} (h : 2 * ts.length + 3 ≤ f) :
    (programBodyF f ts).settled = true := by
  unfold programBodyF
  refine settled_bind (nlLoopF_settled ?_) ?_
  · show ts.length < f
    omega
  intro s1 h1
  dsimp only
  obtain ⟨n0, hn0⟩ := nlLoopF_ok h1
  have hle : s1.toks.length ≤ ts.length := hn0.toExprStep.len_le
  refine settled_bind ((statement_stmtList_settled f).2 TokenType.EOF s1 (by omega)) ?_
  intro s2 h2
  rfl

theorem labelCheck_settled (xs d : List String) : (labelCheck xs d).settled = true := by
  rcases labelCheck_total xs d with h | ⟨m, h⟩ <;> rw [h] <;> rfl

theorem programF_settled {f : Nat} (ord : List String → List String) {ts : List Token}
    (h : 2 * ts.length + 3 ≤ f) : (programF f ord ts).settled = true := by
  unfold programF
  refine settled_bind (programBodyF_settled h) ?_
  intro st hst
  dsimp only
  refine settled_bind (labelCheck_settled _ _) ?_
  intro u hu
  rfl

/-- The whole pipeline with the default fuel always finishes: success or a
diagnostic, never divergence or fuel exhaustion. -/
theorem compile_settled (input : String) : (compile input).settled = true := by
  unfold compile compileF
  refine settled_bind (lexProgram_settled input) ?_
  intro ts hts
  dsimp only
  have hts2 : lexAllF (input.length + 3) (LexState.init input.data) = .ok ts := hts
  have hlen := lexAllF_length_src hts2
  have hsrc : (LexState.init input.data).source.length = input.data.length + 1 := by
    show (input.data ++ ['\n']).length = input.data.length + 1
    simp
  have hp : (LexState.init input.data).pos = 0 := rfl
  have hdl : input.length = input.data.length := rfl
  refine settled_bind (programF_settled id ?_) ?_
  · show 2 * ts.length + 3 ≤ 2 * input.length + 8
    rw [hsrc, hp] at hlen
    rw [hdl]
    omega
  intro st hst
  dsimp only
  rfl

/-- C10: compilation always terminates, rendered in the fueled embedding as:
every token-producing `get_token` call strictly advances the cursor offset, a
successful `statement` call strictly shrinks the remaining token stream (it
consumes at least its mandatory trailing newline), and the whole pipeline
with the default fuel always settles into a result or a diagnostic for every
input, never hanging or running out of fuel. -/
theorem c10_termination :
    (∀ (s : LexState) (t : Token) (u : LexState), getToken s = .tok t u → s.pos < u.pos) ∧
    (∀ (f : Nat) (st st' : PState), statementF f st = .ok st' →
      st'.toks.length < st.toks.length) ∧
    (∀ input : String, (compile input).settled = true) := by
  refine ⟨?_, ?_, compile_settled⟩
  · intro s t u h
    exact (getToken_tok h).2.1
  · intro f st st' h
    obtain ⟨n, fr, hn, hne, hsok, hlast⟩ := (statement_stmtList_ok f).1 h
    rw [hsok.1, List.length_drop]
    have h0 : st.toks.length ≠ 0 := fun hc => hne (List.eq_nil_of_length_eq_zero hc)
    omega

/-- The termination facts at concrete inputs: lexing `+` advances the cursor
from 0 to 1, a concrete `PRINT 1` statement shrinks four tokens to one, and
compiling `PRINT 1` settles. -/
theorem c10_termination_witness :
    (LexState.init "+".data).pos <
      (⟨"+\n".data, 1⟩ : LexState).pos ∧
    ((⟨[⟨"\x00", TokenType.EOF⟩], [], [], [], "",
        "printf(\"%" ++ ".2f\\n\", (float)(1));\n"⟩ : PState).toks.length <
      (⟨[⟨"PRINT", TokenType.PRINT⟩, ⟨"1", TokenType.NUMBER⟩,
         ⟨"\n", TokenType.NEWLINE⟩, ⟨"\x00", TokenType.EOF⟩],
        [], [], [], "", ""⟩ : PState).toks.length) ∧
    (compile "PRINT 1").settled = true :=
  ⟨c10_termination.1 (LexState.init "+".data) ⟨"+", TokenType.PLUS⟩
      ⟨"+\n".data, 1⟩ (by decide),
   c10_termination.2.1 5 _ _ (by decide),
   c10_termination.2.2 "PRINT 1"⟩

end TeenyTiny
